import Mathlib

/-!
Verification of the Sales-Analytics-System repository: a shallow embedding of the
transaction parsing, validation/filtering, aggregation, enrichment and HTTP-fetch
functions, followed by theorems settling the specification claims.

Python strings are modelled as `List Char`, Python ints as `Int`/`Nat`, and Python
floats as exact rationals `Rat` (arithmetic is modelled exactly; IEEE rounding is
not modelled).  Python dictionaries keyed by insertion order are modelled as
association lists, and Python's stable `list.sort` as `List.insertionSort`
(any two stable sorts agree extensionally).
-/

unseal Rat.mul Rat.inv Rat.add Rat.sub

/-- Characters of a Python string. -/
abbrev Str := List Char

/-- Whitespace recognised by `str.strip()` (ASCII subset used by the data files). -/
def isWS (c : Char) : Bool := c = ' ' || c = '\t' || c = '\n' || c = '\r'

/-- Model of `s.strip()`: drop leading and trailing whitespace. -/
def trimChars (s : Str) : Str :=
  ((s.dropWhile isWS).reverse.dropWhile isWS).reverse

/-- Model of `s.split(sep)` for a one-character separator. -/
def splitOnChar (sep : Char) : Str → List Str
  | [] => [[]]
  | c :: rest =>
    let r := splitOnChar sep rest
    if c = sep then [] :: r
    else
      match r with
      | [] => [[c]]
      | f :: fs => (c :: f) :: fs

/-- Model of `sep.join(fields)` for a one-character separator. -/
def joinSep (sep : Char) : List Str → Str
  | [] => []
  | [f] => f
  | f :: fs => f ++ sep :: joinSep sep fs

/-- Model of `s.startswith(c)` for a one-character argument. -/
def startsWithChar (c : Char) : Str → Bool
  | [] => false
  | a :: _ => a = c

/-- Model of `s.replace(',', '')`. -/
def removeCommas (s : Str) : Str := s.filter (fun c => c ≠ ',')

/-- Numeric value of a decimal digit character. -/
def digToNat (c : Char) : Nat := c.toNat - 48

/-- True when every character of the list is a decimal digit. -/
def allDigits (l : Str) : Bool := l.all Char.isDigit

/-- Value of a string of decimal digits, most significant first. -/
def digitsToNat (l : Str) : Nat := l.foldl (fun a c => a * 10 + digToNat c) 0

/-- The decimal digit character for a value below ten. -/
def natDigitChar (d : Nat) : Char :=
  if d = 0 then '0' else if d = 1 then '1' else if d = 2 then '2'
  else if d = 3 then '3' else if d = 4 then '4' else if d = 5 then '5'
  else if d = 6 then '6' else if d = 7 then '7' else if d = 8 then '8' else '9'

/-- Auxiliary digit accumulator for rendering a natural number in base ten;
structural recursion on a fuel argument so that it reduces definitionally
(any fuel above the number works, see `natToDigitsF_spec`). -/
def natToDigitsF : Nat → Nat → Str → Str
  | 0, _, acc => acc
  | fuel + 1, n, acc =>
    if n < 10 then natDigitChar n :: acc
    else natToDigitsF fuel (n / 10) (natDigitChar (n % 10) :: acc)

/-- Decimal digit string of a natural number (no sign, no leading zeros except for 0). -/
def natToDigits (n : Nat) : Str := natToDigitsF (n + 1) n []

/-- Model of the optional sign prefix accepted by Python's `int()` and `float()`:
returns the sign as `1` or `-1` together with the remaining characters. -/
def parseSign (s : Str) : Int × Str :=
  match s with
  | [] => (1, [])
  | c :: r => if c = '+' then (1, r) else if c = '-' then ((-1 : Int), r) else (1, c :: r)

/-- Model of Python's `int(s)` on decimal input: optional surrounding whitespace,
optional sign, then a non-empty run of digits; anything else raises `ValueError`,
modelled as `none`.  (Underscore digit separators are not modelled.) -/
def pyInt (s : Str) : Option Int :=
  let t := trimChars s
  let p := parseSign t
  if p.2 ≠ [] ∧ allDigits p.2 then some (p.1 * (digitsToNat p.2 : Int)) else none

/-- Mantissa of a float literal: digits with at most one decimal point, not all empty.
Returns the digits' value as an integer numerator together with the number of
fractional digits. -/
def parseMantVal (mant : Str) : Option (Nat × Nat) :=
  match splitOnChar '.' mant with
  | [ip] => if ip ≠ [] ∧ allDigits ip then some (digitsToNat ip, 0) else none
  | [ip, fp] =>
    if (ip ≠ [] ∨ fp ≠ []) ∧ allDigits ip ∧ allDigits fp then
      some (digitsToNat ip * 10 ^ fp.length + digitsToNat fp, fp.length)
    else none
  | _ => none

/-- Exponent part of a float literal: optional sign then non-empty digits. -/
def parseExp (l : Str) : Option Int :=
  let p := parseSign l
  if p.2 ≠ [] ∧ allDigits p.2 then some (p.1 * (digitsToNat p.2 : Int)) else none

/-- Model of Python's `float(s)` on decimal input: optional surrounding whitespace,
optional sign, mantissa with optional fraction, optional `e`/`E` exponent; failures
(`ValueError`) are modelled as `none`.  (`inf`/`nan` literals are not modelled.) -/
def pyFloat (s : Str) : Option Rat :=
  let t := trimChars s
  let p := parseSign t
  let r := p.2.map (fun c => if c = 'E' then 'e' else c)
  match splitOnChar 'e' r with
  | [mant] =>
    (parseMantVal mant).map (fun q => (p.1 : Rat) * (q.1 : Rat) / 10 ^ q.2)
  | [mant, ex] =>
    match parseMantVal mant, parseExp ex with
    | some q, some e => some ((p.1 : Rat) * (q.1 : Rat) / 10 ^ q.2 * (10 : Rat) ^ e)
    | _, _ => none
  | _ => none

/-- Decimal rendering of an integer, mirroring Python's `str` on `int`. -/
def renderInt (n : Int) : Str :=
  (if n < 0 then ['-'] else []) ++ natToDigits n.natAbs

/-- Decimal rendering of a rational whose denominator divides a power of ten,
mirroring Python's `str` on `float` (an exact decimal form of the same value). -/
def renderRat (q : Rat) : Str :=
  let d := q.den
  let k := d
  let m := q.num.natAbs * 10 ^ k / d
  let ds₀ := natToDigits m
  let ds := if ds₀.length ≤ k then List.replicate (k + 1 - ds₀.length) '0' ++ ds₀ else ds₀
  (if q < 0 then ['-'] else []) ++ ds.take (ds.length - k) ++ '.' :: ds.drop (ds.length - k)

/-- A parsed sales transaction, as produced by `parse_transactions`. -/
structure Transaction where
  TransactionID : Str
  Date : Str
  ProductID : Str
  ProductName : Str
  Quantity : Int
  UnitPrice : Rat
  CustomerID : Str
  Region : Str
deriving DecidableEq

/-- Body of one iteration of the `parse_transactions` loop: split on `'|'`,
skip rows without exactly 8 fields, strip every field, remove commas from
`ProductName` and the numeric fields, convert `Quantity` with `int()` and
`UnitPrice` with `float()`; a conversion failure (`ValueError`) skips the row. -/
def parseLine (line : Str) : Option Transaction :=
  let fields := splitOnChar '|' line
  if fields.length = 8 then
    match pyInt (removeCommas (trimChars (fields.getD 4 []))),
          pyFloat (removeCommas (trimChars (fields.getD 5 []))) with
    | some q, some p =>
      some { TransactionID := trimChars (fields.getD 0 [])
             Date := trimChars (fields.getD 1 [])
             ProductID := trimChars (fields.getD 2 [])
             ProductName := removeCommas (trimChars (fields.getD 3 []))
             Quantity := q
             UnitPrice := p
             CustomerID := trimChars (fields.getD 6 [])
             Region := trimChars (fields.getD 7 []) }
    | _, _ => none
  else none

/-- Model of `parse_transactions`: one pass over the raw lines, appending the
successfully parsed rows and silently skipping the rest. -/
def parse_transactions (raw_lines : List Str) : List Transaction :=
  raw_lines.filterMap parseLine

/-- Modelled from the spec: re-serialization of a parsed record back to one
pipe-delimited line (the repository writes records back with `'|'.join` of the
field values, numeric fields via `str`). -/
def serializeTransaction (t : Transaction) : Str :=
  joinSep '|' [t.TransactionID, t.Date, t.ProductID, t.ProductName,
               renderInt t.Quantity, renderRat t.UnitPrice, t.CustomerID, t.Region]

/-- A transaction dictionary as consumed by `validate_and_filter` and
`enrich_sales_data`: any of the eight expected keys may be absent. -/
structure TransDict where
  TransactionID : Option Str
  Date : Option Str
  ProductID : Option Str
  ProductName : Option Str
  Quantity : Option Int
  UnitPrice : Option Rat
  CustomerID : Option Str
  Region : Option Str
deriving DecidableEq

/-- Check of `all(field in trans for field in required_fields)`. -/
def hasAllFields (t : TransDict) : Bool :=
  t.TransactionID.isSome && t.Date.isSome && t.ProductID.isSome && t.ProductName.isSome &&
  t.Quantity.isSome && t.UnitPrice.isSome && t.CustomerID.isSome && t.Region.isSome

/-- The validation chain of the first pass of `validate_and_filter`: all required
fields present, `TransactionID`/`ProductID`/`CustomerID` carry their prefix letter,
`Quantity > 0` and `UnitPrice > 0`. -/
def is_valid (t : TransDict) : Bool :=
  if ¬ hasAllFields t then false
  else if ¬ startsWithChar 'T' (t.TransactionID.getD []) then false
  else if ¬ startsWithChar 'P' (t.ProductID.getD []) then false
  else if ¬ startsWithChar 'C' (t.CustomerID.getD []) then false
  else if t.Quantity.getD 0 ≤ 0 then false
  else if t.UnitPrice.getD 0 ≤ 0 then false
  else true

/-- Transaction amount `trans['Quantity'] * trans['UnitPrice']` (fields present
whenever this is reached in the code). -/
def amountOf (t : TransDict) : Rat := (t.Quantity.getD 0 : Rat) * t.UnitPrice.getD 0

/-- The first pass of `validate_and_filter`: append valid transactions in order,
count the invalid ones. -/
def validatePass (transactions : List TransDict) : List TransDict × Nat :=
  transactions.foldl
    (fun acc t => if is_valid t then (acc.1 ++ [t], acc.2) else (acc.1, acc.2 + 1))
    ([], 0)

/-- The `filter_summary` dictionary built by `validate_and_filter`. -/
structure FilterSummary where
  total_input : Nat
  invalid : Nat
  valid : Nat
  filtered_by_region : Nat
  filtered_by_amount : Nat
  final_count : Nat
deriving DecidableEq

/-- Model of `validate_and_filter(transactions, region, min_amount, max_amount)`:
validation pass, then the optional region filter, then the optional amount-range
filter, returning the filtered list, the invalid count and the summary.
Console printing is omitted. -/
def validate_and_filter (transactions : List TransDict) (region : Option Str)
    (min_amount : Option Rat) (max_amount : Option Rat) :
    List TransDict × Nat × FilterSummary :=
  let pass := validatePass transactions
  let valid_transactions := pass.1
  let invalid_count := pass.2
  let afterRegion :=
    match region with
    | none => valid_transactions
    | some r => valid_transactions.filter (fun t => t.Region.getD [] = trimChars r)
  let filtered_by_region :=
    match region with
    | none => 0
    | some _ => valid_transactions.length - afterRegion.length
  let amountOk (t : TransDict) : Bool :=
    (match min_amount with | none => true | some m => decide (m ≤ amountOf t)) &&
    (match max_amount with | none => true | some m => decide (amountOf t ≤ m))
  let afterAmount :=
    if min_amount.isSome || max_amount.isSome then afterRegion.filter amountOk
    else afterRegion
  let filtered_by_amount :=
    if min_amount.isSome || max_amount.isSome then afterRegion.length - afterAmount.length
    else 0
  (afterAmount, invalid_count,
   { total_input := transactions.length
     invalid := invalid_count
     valid := valid_transactions.length
     filtered_by_region := filtered_by_region
     filtered_by_amount := filtered_by_amount
     final_count := afterAmount.length })

/-- Model of `calculate_total_revenue`: running sum of `Quantity * UnitPrice`. -/
def calculate_total_revenue (transactions : List Transaction) : Rat :=
  transactions.foldl (fun acc t => acc + (t.Quantity : Rat) * t.UnitPrice) 0

/-- Amount contributed by one parsed transaction. -/
def transactionAmount (t : Transaction) : Rat := (t.Quantity : Rat) * t.UnitPrice

/-- Looks a key up in an association list (model of `d[k]` / `k in d`). -/
def findVal {α β : Type} [DecidableEq α] (m : List (α × β)) (k : α) : Option β :=
  (m.find? (fun p => p.1 = k)).map Prod.snd

/-- Model of `if k not in d: d[k] = v` on an insertion-ordered dictionary. -/
def ensureKey {α β : Type} [DecidableEq α] (m : List (α × β)) (k : α) (v : β) :
    List (α × β) :=
  if m.any (fun p => p.1 = k) then m else m ++ [(k, v)]

/-- Model of `d[k] = f(d[k])` on an insertion-ordered dictionary: the entry is
updated in place, the key order is unchanged. -/
def updateKey {α β : Type} [DecidableEq α] (m : List (α × β)) (k : α) (f : β → β) :
    List (α × β) :=
  m.map (fun p => if p.1 = k then (p.1, f p.2) else p)

/-- Per-region running sums of the first pass of `region_wise_sales`. -/
structure RegionAgg where
  total_sales : Rat
  transaction_count : Nat
deriving DecidableEq

/-- A finished per-region record of `region_wise_sales`, percentage included. -/
structure RegionStats where
  total_sales : Rat
  transaction_count : Nat
  percentage : Rat
deriving DecidableEq

/-- One iteration of the first pass of `region_wise_sales`. -/
def regionStep (acc : List (Str × RegionAgg) × Rat) (t : Transaction) :
    List (Str × RegionAgg) × Rat :=
  let amt := transactionAmount t
  let m := ensureKey acc.1 t.Region ⟨0, 0⟩
  (updateKey m t.Region (fun s => ⟨s.total_sales + amt, s.transaction_count + 1⟩),
   acc.2 + amt)

/-- First pass of `region_wise_sales`: per-region sums/counts in first-occurrence
order, together with the running total revenue. -/
def region_stats_pass (transactions : List Transaction) : List (Str × RegionAgg) × Rat :=
  transactions.foldl regionStep ([], 0)

/-- Model of Python's bankers rounding of a rational to the nearest integer. -/
def roundHalfEven (q : Rat) : Int :=
  let f := ⌊q⌋
  let r := q - (f : Rat)
  if r < 1 / 2 then f else if 1 / 2 < r then f + 1 else if f % 2 = 0 then f else f + 1

/-- Model of Python's `round(x, 2)` on the exact rational value. -/
def pyRound2 (q : Rat) : Rat := (roundHalfEven (q * 100) : Rat) / 100

/-- Descending comparison on `total_sales` used to sort the region dictionary. -/
def salesGE (a b : Str × RegionStats) : Prop := b.2.total_sales ≤ a.2.total_sales

instance : DecidableRel salesGE :=
  fun a b => inferInstanceAs (Decidable (b.2.total_sales ≤ a.2.total_sales))

/-- Model of `region_wise_sales`: aggregation pass, percentage pass (raising
`ZeroDivisionError` — modelled as `none` — when the total revenue is zero
while regions exist), then a stable sort by `total_sales` descending. -/
def region_wise_sales (transactions : List Transaction) :
    Option (List (Str × RegionStats)) :=
  let pass := region_stats_pass transactions
  if pass.1 ≠ [] ∧ pass.2 = 0 then none
  else
    some (List.insertionSort salesGE
      (pass.1.map (fun p =>
        (p.1, { total_sales := p.2.total_sales
                transaction_count := p.2.transaction_count
                percentage := pyRound2 (p.2.total_sales / pass.2 * 100) }))))

/-- Per-product running sums of `top_selling_products`. -/
structure ProductStats where
  total_quantity : Int
  total_revenue : Rat
  transaction_count : Nat
deriving DecidableEq

/-- One iteration of the aggregation loop of `top_selling_products`. -/
def productStep (acc : List (Str × ProductStats)) (t : Transaction) :
    List (Str × ProductStats) :=
  let m := ensureKey acc t.ProductName ⟨0, 0, 0⟩
  updateKey m t.ProductName (fun s =>
    ⟨s.total_quantity + t.Quantity, s.total_revenue + transactionAmount t,
     s.transaction_count + 1⟩)

/-- Aggregation pass of `top_selling_products`: per-product stats in
first-occurrence order. -/
def product_stats_pass (transactions : List Transaction) : List (Str × ProductStats) :=
  transactions.foldl productStep []

/-- Descending comparison on total quantity used by `top_selling_products`. -/
def qtyGE (a b : Str × Int × Rat) : Prop := b.2.1 ≤ a.2.1

instance : DecidableRel qtyGE :=
  fun a b => inferInstanceAs (Decidable (b.2.1 ≤ a.2.1))

/-- Model of `top_selling_products`: aggregate by product name, convert to
`(name, total_quantity, total_revenue)` tuples, stable-sort by total quantity
descending, return the first `n`. -/
def top_selling_products (transactions : List Transaction) (n : Nat) :
    List (Str × Int × Rat) :=
  let product_list :=
    (product_stats_pass transactions).map (fun p => (p.1, p.2.total_quantity, p.2.total_revenue))
  (List.insertionSort qtyGE product_list).take n

/-- Modelled from the spec: the product names of the input in order of first
occurrence (the key order of an insertion-ordered dictionary). -/
def firstOccurNames (transactions : List Transaction) : List Str :=
  transactions.foldl
    (fun acc t => if t.ProductName ∈ acc then acc else acc ++ [t.ProductName]) []

/-- A product-mapping entry as built by `create_product_mapping` (every key is
present there, so the fields are plain values). -/
structure ProductInfo where
  title : Str
  category : Str
  brand : Str
  price : Rat
  rating : Rat
  stock : Int
  discount : Rat
  sku : Str
deriving DecidableEq

/-- An output record of `enrich_sales_data`: the copied original dictionary plus
the added `API_*` keys (`None` is modelled as `none`). -/
structure EnrichedTransaction where
  base : TransDict
  API_Category : Option Str
  API_Brand : Option Str
  API_Rating : Option Rat
  API_Price : Option Rat
  API_Stock : Option Int
  API_Discount : Option Rat
  API_Match : Bool
deriving DecidableEq

/-- The numeric-id extraction of `enrich_sales_data`:
`transaction.get('ProductID', '')`, require the `'P'` prefix, `int()` on the rest
(`ValueError` gives `None`, modelled as `none`). -/
def extractNumericId (t : TransDict) : Option Int :=
  let pid := t.ProductID.getD []
  if startsWithChar 'P' pid then pyInt (pid.drop 1) else none

/-- Body of one iteration of the `enrich_sales_data` loop.  The guard
`if numeric_id and numeric_id in product_mapping` treats `numeric_id = 0` as
falsy, exactly like the Python truthiness test. -/
def enrichOne (product_mapping : List (Int × ProductInfo)) (t : TransDict) :
    EnrichedTransaction :=
  match (extractNumericId t).bind
      (fun k => if k ≠ 0 then findVal product_mapping k else none) with
  | some info =>
    { base := t
      API_Category := some info.category
      API_Brand := some info.brand
      API_Rating := some info.rating
      API_Price := some info.price
      API_Stock := some info.stock
      API_Discount := some info.discount
      API_Match := true }
  | none =>
    { base := t
      API_Category := none
      API_Brand := none
      API_Rating := none
      API_Price := none
      API_Stock := none
      API_Discount := none
      API_Match := false }

/-- Model of `enrich_sales_data`: empty input or empty mapping returns the empty
list, otherwise one enriched record per transaction, in order. -/
def enrich_sales_data (transactions : List TransDict)
    (product_mapping : List (Int × ProductInfo)) : List EnrichedTransaction :=
  if transactions = [] then []
  else if product_mapping = [] then []
  else transactions.map (enrichOne product_mapping)

/-- A raw product object of the JSON payload: every key may be absent
(the code reads them with `dict.get` and a default). -/
structure ProductJSON where
  id : Option Int
  title : Option Str
  category : Option Str
  brand : Option Str
  price : Option Rat
  rating : Option Rat
  stock : Option Int
  discountPercentage : Option Rat
  sku : Option Str
deriving DecidableEq

/-- The decoded JSON payload of the products endpoint. -/
structure ProductsPayload where
  products : Option (List ProductJSON)
  total : Option Int
deriving DecidableEq

/-- Outcome of one HTTP GET as observed by the calling code: the request-level
exceptions, or a response with a status code and a body that either decodes as
JSON (`some`) or is malformed (`none`). -/
inductive HTTPOutcome (β : Type) where
  | timeout
  | connectionError
  | httpError
  | requestError
  | response (status : Nat) (body : Option β)
deriving DecidableEq

/-- A simplified product record built by `fetch_all_products`. -/
structure Product where
  id : Option Int
  title : Str
  category : Str
  brand : Str
  price : Rat
  rating : Rat
  stock : Int
  discount : Rat
  sku : Str
deriving DecidableEq

/-- The per-product field extraction of `fetch_all_products`, with the `dict.get`
defaults of the code. -/
def simplifyProduct (p : ProductJSON) : Product :=
  { id := p.id
    title := p.title.getD "N/A".toList
    category := p.category.getD "N/A".toList
    brand := p.brand.getD "Unknown".toList
    price := p.price.getD 0
    rating := p.rating.getD 0
    stock := p.stock.getD 0
    discount := p.discountPercentage.getD 0
    sku := p.sku.getD "N/A".toList }

/-- Model of `fetch_all_products`: every caught exception (timeout, connection
error, HTTP error, other request exception, JSON decode failure) returns `[]`,
as do a non-200 status and an empty product list; otherwise the simplified
products are returned. -/
def fetch_all_products (o : HTTPOutcome ProductsPayload) : List Product :=
  match o with
  | .timeout => []
  | .connectionError => []
  | .httpError => []
  | .requestError => []
  | .response status body =>
    if status ≠ 200 then []
    else
      match body with
      | none => []
      | some data =>
        let products := data.products.getD []
        if products = [] then [] else products.map simplifyProduct

/-- Model of `fetch_external_products`: request exceptions (which include JSON
decode failures in the requests library) are caught and give `None`, a non-200
status gives `None`, otherwise the decoded payload is returned. -/
def fetch_external_products (o : HTTPOutcome ProductsPayload) : Option ProductsPayload :=
  match o with
  | .timeout => none
  | .connectionError => none
  | .httpError => none
  | .requestError => none
  | .response status body => if status = 200 then body else none

/-- The failure outcomes named by the spec: timeout, connection error, any other
request exception, a non-200 status, or malformed JSON. -/
def isFailureOutcome {β : Type} (o : HTTPOutcome β) : Prop :=
  match o with
  | .response status body => status ≠ 200 ∨ body = none
  | _ => True

/-- Fixture: a product-info record used by concrete witnesses. -/
def wInfo : ProductInfo :=
  ⟨"t".toList, "cat".toList, "brand".toList, 5, 4, 3, 2, "sk".toList⟩

/-- Fixture: a fully valid transaction dictionary with `ProductID = "P1"`. -/
def wTd : TransDict :=
  ⟨some "T1".toList, some "d".toList, some "P1".toList, some "A".toList,
   some 2, some 3, some "C1".toList, some "N".toList⟩

/-- Fixture: a transaction dictionary whose `ProductID` is `"P0"`. -/
def wTdP0 : TransDict :=
  ⟨some "T1".toList, some "d".toList, some "P0".toList, some "A".toList,
   some 2, some 3, some "C1".toList, some "N".toList⟩

/-- Invariant of the first-pass fold of `region_wise_sales` over the processed
prefix `pre`: the running total is the sum of amounts, the region keys are
duplicate-free and are exactly the regions seen, every entry holds the
sum and count of its region, and the per-entry sales add up to the running total. -/
def RegionInv (pre : List Transaction) (acc : List (Str × RegionAgg) × Rat) : Prop :=
  acc.2 = (pre.map transactionAmount).sum ∧
  (acc.1.map Prod.fst).Nodup ∧
  (∀ r : Str, r ∈ acc.1.map Prod.fst ↔ r ∈ pre.map Transaction.Region) ∧
  (∀ p ∈ acc.1,
    p.2.total_sales = ((pre.filter (fun t => decide (t.Region = p.1))).map transactionAmount).sum ∧
    p.2.transaction_count = (pre.filter (fun t => decide (t.Region = p.1))).length) ∧
  (acc.1.map (fun p => p.2.total_sales)).sum = acc.2

instance : IsTotal (Str × Int × Rat) qtyGE := ⟨fun a b => le_total b.2.1 a.2.1⟩

instance : IsTrans (Str × Int × Rat) qtyGE := ⟨fun _ _ _ hab hbc => le_trans hbc hab⟩

instance : IsTotal (Str × RegionStats) salesGE :=
  ⟨fun a b => le_total b.2.total_sales a.2.total_sales⟩

instance : IsTrans (Str × RegionStats) salesGE := ⟨fun _ _ _ hab hbc => le_trans hbc hab⟩

/-- Fixture: a parsed transaction used by concrete witnesses. -/
def wTr : Transaction :=
  ⟨"T1".toList, "d".toList, "P1".toList, "A".toList, 2, 3, "C1".toList, "N".toList⟩

/-- Fixture: the region result for `[wTr]`. -/
def wRegionRes : List (Str × RegionStats) := [("N".toList, ⟨6, 1, 100⟩)]

/-- Fixture: a well-formed line whose ProductName needs no comma stripping. -/
def wLine : Str := "T1|d|P1|A|1|2|C1|N".toList

/-- Fixture: a well-formed line whose ProductName field contains a comma before
trailing whitespace, so comma removal exposes a trailing space. -/
def cLine : Str := "T1|d|P1|A ,|1|2|C1|N".toList

/-- Modelled from the claim wording of C1: all 8 required fields present,
`Quantity > 0`, `UnitPrice > 0`, and the three identifier prefixes. -/
def spec_valid (t : TransDict) : Bool :=
  hasAllFields t && decide (0 < t.Quantity.getD 0) && decide ((0 : Rat) < t.UnitPrice.getD 0) &&
  startsWithChar 'T' (t.TransactionID.getD []) && startsWithChar 'P' (t.ProductID.getD []) &&
  startsWithChar 'C' (t.CustomerID.getD [])

theorem enrichOne_base (pm : List (Int × ProductInfo)) (t : TransDict) :
    (enrichOne pm t).base = t := by
  unfold enrichOne
  cases (extractNumericId t).bind
      (fun k => if k ≠ 0 then findVal pm k else none) <;> rfl

/-- C4: every failure outcome of the HTTP GET (timeout, connection error,
non-200 status, malformed JSON, or any request exception) makes
`fetch_all_products` return the empty list and `fetch_external_products` return
an empty result; both are total functions, so no exception escapes to the caller. -/
theorem claim_C4_http_failures_empty (o : HTTPOutcome ProductsPayload)
    (h : isFailureOutcome o) :
    fetch_all_products o = [] ∧ fetch_external_products o = none := by
  cases o with
  | timeout => exact ⟨rfl, rfl⟩
  | connectionError => exact ⟨rfl, rfl⟩
  | httpError => exact ⟨rfl, rfl⟩
  | requestError => exact ⟨rfl, rfl⟩
  | response status body =>
    by_cases hs : status = 200
    · rcases h with h | h
      · exact absurd hs h
      · subst h
        simp [fetch_all_products, fetch_external_products, hs]
    · simp [fetch_all_products, fetch_external_products, hs]

theorem claim_C4_witness :
    fetch_all_products (HTTPOutcome.timeout : HTTPOutcome ProductsPayload) = [] ∧
    fetch_external_products (HTTPOutcome.timeout : HTTPOutcome ProductsPayload) = none :=
  claim_C4_http_failures_empty HTTPOutcome.timeout trivial

/-- C10: with a non-empty transaction list and a non-empty product mapping,
`enrich_sales_data` returns one record per input transaction, in order, and
every output record carries its input transaction unchanged (hence agrees with
it on all 8 original fields), only adding the `API_*` fields. -/
theorem claim_C10_enrich_preserves_fields (ts : List TransDict)
    (pm : List (Int × ProductInfo)) (hts : ts ≠ []) (hpm : pm ≠ []) :
    (enrich_sales_data ts pm).map EnrichedTransaction.base = ts ∧
    (enrich_sales_data ts pm).length = ts.length := by
  have hmap : (enrich_sales_data ts pm).map EnrichedTransaction.base = ts := by
    simp only [enrich_sales_data, if_neg hts, if_neg hpm, List.map_map]
    have : (EnrichedTransaction.base ∘ enrichOne pm) = id := by
      funext t
      exact enrichOne_base pm t
    rw [this, List.map_id]
  exact ⟨hmap, by simpa using congrArg List.length hmap⟩

theorem claim_C10_witness :
    (enrich_sales_data [wTd] [(1, wInfo)]).map EnrichedTransaction.base = [wTd] ∧
    (enrich_sales_data [wTd] [(1, wInfo)]).length = [wTd].length :=
  claim_C10_enrich_preserves_fields [wTd] [(1, wInfo)] (by decide) (by decide)

/-- C6 counterexample: the transaction `wTdP0` has `ProductID = "P0"`, which
starts with `'P'` and whose remaining characters parse as the integer `0`, a key
of the mapping `[(0, wInfo)]`; the claim then demands `API_Match = True` with the
mapping's fields, but the code's truthiness test `if numeric_id and ...` treats
the id `0` as falsy and produces an unmatched record. -/
theorem claim_C6_counterexample :
    ([wTdP0] ≠ ([] : List TransDict)) ∧ [((0 : Int), wInfo)] ≠ [] ∧
    startsWithChar 'P' (wTdP0.ProductID.getD []) = true ∧
    pyInt ((wTdP0.ProductID.getD []).drop 1) = some 0 ∧
    findVal [((0 : Int), wInfo)] 0 = some wInfo ∧
    enrich_sales_data [wTdP0] [((0 : Int), wInfo)] =
      [⟨wTdP0, none, none, none, none, none, none, false⟩] := by
  refine ⟨by decide, by decide, by decide, by decide, by decide, by decide⟩

theorem extractNumericId_eq_some (t : TransDict) (k : Int) :
    extractNumericId t = some k ↔
      startsWithChar 'P' (t.ProductID.getD []) = true ∧
      pyInt ((t.ProductID.getD []).drop 1) = some k := by
  unfold extractNumericId
  by_cases h : startsWithChar 'P' (t.ProductID.getD []) = true <;> simp [h]

theorem enrichOne_matched (pm : List (Int × ProductInfo)) (t : TransDict)
    (info : ProductInfo)
    (h : (extractNumericId t).bind (fun k => if k ≠ 0 then findVal pm k else none) =
      some info) :
    enrichOne pm t = ⟨t, some info.category, some info.brand, some info.rating,
                      some info.price, some info.stock, some info.discount, true⟩ := by
  unfold enrichOne
  rw [h]

theorem enrichOne_unmatched (pm : List (Int × ProductInfo)) (t : TransDict)
    (h : (extractNumericId t).bind (fun k => if k ≠ 0 then findVal pm k else none) =
      none) :
    enrichOne pm t = ⟨t, none, none, none, none, none, none, false⟩ := by
  unfold enrichOne
  rw [h]

/-- C6 (amended): with non-empty transactions and mapping, enrichment maps each
transaction individually; a record gets `API_Match = True` with the mapping
entry's fields exactly when its `ProductID` starts with `'P'` and the remaining
characters parse as a nonzero integer that is a key of the mapping; otherwise
`API_Match = False` and the API fields are `None`. -/
theorem claim_C6_enrichment_join (ts : List TransDict) (pm : List (Int × ProductInfo))
    (hts : ts ≠ []) (hpm : pm ≠ []) :
    enrich_sales_data ts pm = ts.map (enrichOne pm) ∧
    ∀ t : TransDict,
      ((enrichOne pm t).API_Match = true ↔
        ∃ k, startsWithChar 'P' (t.ProductID.getD []) = true ∧
             pyInt ((t.ProductID.getD []).drop 1) = some k ∧ k ≠ 0 ∧
             ∃ info, findVal pm k = some info) ∧
      (∀ k info, startsWithChar 'P' (t.ProductID.getD []) = true →
          pyInt ((t.ProductID.getD []).drop 1) = some k → k ≠ 0 →
          findVal pm k = some info →
          enrichOne pm t = ⟨t, some info.category, some info.brand, some info.rating,
                            some info.price, some info.stock, some info.discount, true⟩) ∧
      ((enrichOne pm t).API_Match = false →
          enrichOne pm t = ⟨t, none, none, none, none, none, none, false⟩) := by
  refine ⟨by simp [enrich_sales_data, hts, hpm], fun t => ⟨?_, ?_, ?_⟩⟩
  · cases hE : (extractNumericId t).bind (fun k => if k ≠ 0 then findVal pm k else none) with
    | some info =>
      rw [enrichOne_matched pm t info hE]
      simp only [true_iff]
      rcases Option.bind_eq_some.mp hE with ⟨k, hk, hif⟩
      rcases extractNumericId_eq_some t k |>.mp hk with ⟨hP, hpy⟩
      by_cases hk0 : k = 0
      · simp [hk0] at hif
      · refine ⟨k, hP, hpy, hk0, ⟨info, ?_⟩⟩
        simpa [hk0] using hif
    | none =>
      rw [enrichOne_unmatched pm t hE]
      simp only [Bool.false_eq_true, false_iff]
      rintro ⟨k, hP, hpy, hk0, info, hfind⟩
      have : (extractNumericId t).bind (fun k => if k ≠ 0 then findVal pm k else none) =
          some info := by
        rw [extractNumericId_eq_some t k |>.mpr ⟨hP, hpy⟩]
        simp [hk0, hfind]
      rw [this] at hE
      exact Option.noConfusion hE
  · intro k info hP hpy hk0 hfind
    apply enrichOne_matched
    rw [extractNumericId_eq_some t k |>.mpr ⟨hP, hpy⟩]
    simp [hk0, hfind]
  · intro hfalse
    cases hE : (extractNumericId t).bind (fun k => if k ≠ 0 then findVal pm k else none) with
    | some info =>
      rw [enrichOne_matched pm t info hE] at hfalse
      exact absurd hfalse (by simp)
    | none => exact enrichOne_unmatched pm t hE

theorem claim_C6_witness :
    enrich_sales_data [wTd] [((1 : Int), wInfo)] = [wTd].map (enrichOne [((1 : Int), wInfo)]) ∧
    ∀ t : TransDict,
      ((enrichOne [((1 : Int), wInfo)] t).API_Match = true ↔
        ∃ k, startsWithChar 'P' (t.ProductID.getD []) = true ∧
             pyInt ((t.ProductID.getD []).drop 1) = some k ∧ k ≠ 0 ∧
             ∃ info, findVal [((1 : Int), wInfo)] k = some info) ∧
      (∀ k info, startsWithChar 'P' (t.ProductID.getD []) = true →
          pyInt ((t.ProductID.getD []).drop 1) = some k → k ≠ 0 →
          findVal [((1 : Int), wInfo)] k = some info →
          enrichOne [((1 : Int), wInfo)] t =
            ⟨t, some info.category, some info.brand, some info.rating,
             some info.price, some info.stock, some info.discount, true⟩) ∧
      ((enrichOne [((1 : Int), wInfo)] t).API_Match = false →
          enrichOne [((1 : Int), wInfo)] t = ⟨t, none, none, none, none, none, none, false⟩) :=
  claim_C6_enrichment_join [wTd] [((1 : Int), wInfo)] (by decide) (by decide)

theorem is_valid_eq_spec_valid (t : TransDict) : is_valid t = spec_valid t := by
  unfold is_valid spec_valid
  split_ifs with h1 h2 h3 h4 h5 h6 <;> simp_all

theorem validatePass_go (ts : List TransDict) :
    ∀ (acc : List TransDict) (n : Nat),
      ts.foldl (fun acc t => if is_valid t then (acc.1 ++ [t], acc.2) else (acc.1, acc.2 + 1)) (acc, n) =
      (acc ++ ts.filter is_valid, n + (ts.filter (fun t => !(is_valid t))).length) := by
  induction ts with
  | nil => simp
  | cons t ts ih =>
    intro acc n
    by_cases h : is_valid t = true
    · simp [List.foldl_cons, h, ih]
    · simp [List.foldl_cons, h, ih, Bool.not_eq_true]
      omega

theorem validatePass_spec (ts : List TransDict) :
    validatePass ts = (ts.filter is_valid, (ts.filter (fun t => !(is_valid t))).length) := by
  unfold validatePass
  rw [validatePass_go ts [] 0]
  simp

theorem vaf_fst_sublist (ts : List TransDict) (r : Option Str) (mn mx : Option Rat) :
    List.Sublist (validate_and_filter ts r mn mx).1 ts := by
  have hv : List.Sublist (validatePass ts).1 ts := by
    rw [validatePass_spec]; exact List.filter_sublist _
  simp only [validate_and_filter]
  rcases r with _ | rv <;> by_cases hf : (mn.isSome || mx.isSome) = true <;>
    simp only [hf, if_true, if_false, Bool.false_eq_true]
  · exact (List.filter_sublist _).trans hv
  · exact hv
  · exact (List.filter_sublist _).trans ((List.filter_sublist _).trans hv)
  · exact (List.filter_sublist _).trans hv

/-- C1: with no region or amount filters, `validate_and_filter` returns exactly
the input transactions satisfying the claim's validity conjunction, in input
order, and the returned invalid count is the number of failing transactions. -/
theorem claim_C1_validate_no_filters (ts : List TransDict) :
    (validate_and_filter ts none none none).1 = ts.filter spec_valid ∧
    (validate_and_filter ts none none none).2.1 =
      (ts.filter (fun t => !(spec_valid t))).length := by
  have hfil : ts.filter is_valid = ts.filter spec_valid :=
    List.filter_congr (fun t _ => is_valid_eq_spec_valid t)
  have hfil2 : ts.filter (fun t => !(is_valid t)) = ts.filter (fun t => !(spec_valid t)) :=
    List.filter_congr (fun t _ => by rw [is_valid_eq_spec_valid])
  simp [validate_and_filter, validatePass_spec, hfil, hfil2]

theorem filter1_arith_a {α : Type} (q : α → Bool) (V : List α) :
    (V.filter q).length = V.length - 0 - (V.length - (V.filter q).length) := by
  have := List.length_filter_le q V
  omega

theorem filter1_arith_b {α : Type} (p : α → Bool) (V : List α) :
    (V.filter p).length = V.length - (V.length - (V.filter p).length) - 0 := by
  have := List.length_filter_le p V
  omega

theorem filter2_arith {α : Type} (p q : α → Bool) (V : List α) :
    ((V.filter p).filter q).length =
      V.length - (V.length - (V.filter p).length) -
      ((V.filter p).length - ((V.filter p).filter q).length) := by
  have h1 := List.length_filter_le p V
  have h2 := List.length_filter_le q (V.filter p)
  omega

/-- C9: for every input and filter combination the returned summary satisfies
`total_input = valid + invalid`,
`final_count = valid - filtered_by_region - filtered_by_amount`,
`final_count` is the length of the returned list, and the separately returned
invalid count equals the summary's `invalid`. -/
theorem claim_C9_summary_arithmetic (ts : List TransDict) (r : Option Str)
    (mn mx : Option Rat) :
    ((validate_and_filter ts r mn mx).2.2.total_input =
      (validate_and_filter ts r mn mx).2.2.valid +
      (validate_and_filter ts r mn mx).2.2.invalid) ∧
    ((validate_and_filter ts r mn mx).2.2.final_count =
      (validate_and_filter ts r mn mx).2.2.valid -
      (validate_and_filter ts r mn mx).2.2.filtered_by_region -
      (validate_and_filter ts r mn mx).2.2.filtered_by_amount) ∧
    (validate_and_filter ts r mn mx).2.2.final_count =
      (validate_and_filter ts r mn mx).1.length ∧
    (validate_and_filter ts r mn mx).2.1 = (validate_and_filter ts r mn mx).2.2.invalid := by
  have hpart := List.length_eq_length_filter_add (l := ts) is_valid
  simp only [validate_and_filter, validatePass_spec]
  rcases r with _ | rv <;> by_cases hf : (mn.isSome || mx.isSome) = true <;>
    simp only [hf, if_true, if_false, Bool.false_eq_true]
  · exact ⟨hpart, filter1_arith_a _ _, trivial, trivial⟩
  · exact ⟨hpart, by omega, trivial, trivial⟩
  · exact ⟨hpart, filter2_arith _ _ _, trivial, trivial⟩
  · exact ⟨hpart, filter1_arith_b _ _, trivial, trivial⟩

/-- C3: for every combination of the optional filters, the transaction list
returned by `validate_and_filter` is no longer than the input and every element
of it is an element of the input. -/
theorem claim_C3_filtering_shrinks (ts : List TransDict) (r : Option Str)
    (mn mx : Option Rat) :
    (validate_and_filter ts r mn mx).1.length ≤ ts.length ∧
    ∀ t ∈ (validate_and_filter ts r mn mx).1, t ∈ ts := by
  have h := vaf_fst_sublist ts r mn mx
  exact ⟨h.length_le, fun t ht => h.subset ht⟩

theorem any_fst_mem {α β : Type} [DecidableEq α] (m : List (α × β)) (k : α) :
    m.any (fun p => p.1 = k) = true ↔ k ∈ m.map Prod.fst := by
  rw [List.any_eq_true]
  constructor
  · rintro ⟨p, hp, he⟩
    exact List.mem_map.mpr ⟨p, hp, by simpa using he⟩
  · intro h
    rcases List.mem_map.mp h with ⟨p, hp, he⟩
    exact ⟨p, hp, by simpa using he⟩

theorem updateKey_map_fst {α β : Type} [DecidableEq α] (m : List (α × β)) (k : α)
    (f : β → β) : (updateKey m k f).map Prod.fst = m.map Prod.fst := by
  unfold updateKey
  rw [List.map_map]
  apply List.map_congr_left
  intro p _
  by_cases h : p.1 = k <;> simp [h]

theorem updateKey_eq_of_not_mem {α β : Type} [DecidableEq α] {m : List (α × β)} {k : α}
    (f : β → β) (h : k ∉ m.map Prod.fst) : updateKey m k f = m := by
  induction m with
  | nil => rfl
  | cons a m ih =>
    simp only [List.map_cons, List.mem_cons] at h
    push_neg at h
    show (if a.1 = k then (a.1, f a.2) else a) :: updateKey m k f = a :: m
    rw [if_neg (fun he => h.1 he.symm), ih h.2]

theorem insertionSort_filter_eq {α : Type} {r : α → α → Prop} [DecidableRel r]
    (l : List α) (p : α → Bool) (hp : ∀ a b, p a = true → p b = true → r a b) :
    (List.insertionSort r l).filter p = l.filter p := by
  have hc : List.Sublist (l.filter p) l := List.filter_sublist l
  have hcp : (l.filter p).Pairwise r :=
    List.pairwise_of_forall_mem_list (fun a ha b hb =>
      hp a b (List.mem_filter.mp ha).2 (List.mem_filter.mp hb).2)
  have h1 : List.Sublist (l.filter p) (List.insertionSort r l) :=
    List.sublist_insertionSort hcp hc
  have h2 : List.Sublist ((l.filter p).filter p) ((List.insertionSort r l).filter p) :=
    h1.filter p
  have hff : (l.filter p).filter p = l.filter p :=
    List.filter_eq_self.mpr (fun a ha => (List.mem_filter.mp ha).2)
  rw [hff] at h2
  have hlen : ((List.insertionSort r l).filter p).length = (l.filter p).length :=
    ((List.perm_insertionSort r l).filter p).length_eq
  exact (h2.eq_of_length hlen.symm).symm


theorem updateKey_cons {α β : Type} [DecidableEq α] (a : α × β) (m : List (α × β))
    (k : α) (f : β → β) :
    updateKey (a :: m) k f = (if a.1 = k then (a.1, f a.2) else a) :: updateKey m k f := rfl

theorem updateKey_sum_sales (m : List (Str × RegionAgg)) (k : Str) (amt : Rat)
    (hnd : (m.map Prod.fst).Nodup) (hk : k ∈ m.map Prod.fst) :
    ((updateKey m k (fun s => ⟨s.total_sales + amt, s.transaction_count + 1⟩)).map
        (fun p => p.2.total_sales)).sum =
      (m.map (fun p => p.2.total_sales)).sum + amt := by
  induction m with
  | nil => simp at hk
  | cons a m ih =>
    simp only [List.map_cons, List.nodup_cons] at hnd
    rw [updateKey_cons]
    by_cases h : a.1 = k
    · have hnm : k ∉ m.map Prod.fst := h ▸ hnd.1
      rw [if_pos h, updateKey_eq_of_not_mem _ hnm]
      simp only [List.map_cons, List.sum_cons]
      ring
    · rw [List.map_cons] at hk
      rcases List.mem_cons.mp hk with hk1 | hk2
      · exact absurd hk1.symm h
      · rw [if_neg h]
        simp only [List.map_cons, List.sum_cons]
        rw [ih hnd.2 hk2]
        ring

theorem region_update_inv (pre : List Transaction) (t : Transaction)
    (m' : List (Str × RegionAgg))
    (hnd : (m'.map Prod.fst).Nodup)
    (hmem : ∀ r : Str, r ∈ m'.map Prod.fst ↔ (r ∈ pre.map Transaction.Region ∨ r = t.Region))
    (hent : ∀ p ∈ m',
      p.2.total_sales = ((pre.filter (fun x => decide (x.Region = p.1))).map transactionAmount).sum ∧
      p.2.transaction_count = (pre.filter (fun x => decide (x.Region = p.1))).length)
    (hsum : (m'.map (fun p => p.2.total_sales)).sum = (pre.map transactionAmount).sum) :
    RegionInv (pre ++ [t])
      (updateKey m' t.Region
         (fun s => ⟨s.total_sales + transactionAmount t, s.transaction_count + 1⟩),
       (pre.map transactionAmount).sum + transactionAmount t) := by
  have hr0 : t.Region ∈ m'.map Prod.fst := (hmem t.Region).mpr (Or.inr rfl)
  refine ⟨?_, ?_, ?_, ?_, ?_⟩
  · simp
  · rw [updateKey_map_fst]; exact hnd
  · intro r
    rw [updateKey_map_fst, hmem r]
    simp [List.mem_append, eq_comm]
  · intro p' hp'
    rcases List.mem_map.mp hp' with ⟨p, hp, rfl⟩
    obtain ⟨he1, he2⟩ := hent p hp
    by_cases hpk : p.1 = t.Region
    · rw [if_pos hpk]
      have hfil : (pre ++ [t]).filter (fun x => decide (x.Region = p.1)) =
          pre.filter (fun x => decide (x.Region = p.1)) ++ [t] := by
        rw [List.filter_append]
        simp [hpk.symm]
      refine ⟨?_, ?_⟩
      · simp only [hfil, List.map_append, List.sum_append]
        simp [he1]
      · simp only [hfil, List.length_append]
        simp [he2]
    · rw [if_neg hpk]
      have hfil : (pre ++ [t]).filter (fun x => decide (x.Region = p.1)) =
          pre.filter (fun x => decide (x.Region = p.1)) := by
        rw [List.filter_append]
        have : (decide (t.Region = p.1)) = false := by
          simp
          exact fun ht => hpk ht.symm
        simp [this]
      rw [hfil]
      exact ⟨he1, he2⟩
  · rw [updateKey_sum_sales m' t.Region (transactionAmount t) hnd hr0, hsum]

theorem regionStep_inv (pre : List Transaction) (t : Transaction)
    (acc : List (Str × RegionAgg) × Rat) (h : RegionInv pre acc) :
    RegionInv (pre ++ [t]) (regionStep acc t) := by
  obtain ⟨h1, h2, h3, h4, h5⟩ := h
  show RegionInv (pre ++ [t])
    (updateKey (ensureKey acc.1 t.Region ⟨0, 0⟩) t.Region
       (fun s => ⟨s.total_sales + transactionAmount t, s.transaction_count + 1⟩),
     acc.2 + transactionAmount t)
  rw [h1]
  by_cases hin : t.Region ∈ acc.1.map Prod.fst
  · have hms : ensureKey acc.1 t.Region ⟨0, 0⟩ = acc.1 := by
      unfold ensureKey
      rw [if_pos ((any_fst_mem _ _).mpr hin)]
    rw [hms]
    refine region_update_inv pre t acc.1 h2 (fun r => ?_) h4 (h5.trans h1)
    constructor
    · intro hr
      exact Or.inl ((h3 r).mp hr)
    · rintro (hr | rfl)
      · exact (h3 r).mpr hr
      · exact hin
  · have hms : ensureKey acc.1 t.Region ⟨0, 0⟩ = acc.1 ++ [(t.Region, ⟨0, 0⟩)] := by
      unfold ensureKey
      rw [if_neg (fun hc => hin ((any_fst_mem _ _).mp hc))]
    rw [hms]
    have hpre0 : pre.filter (fun x => decide (x.Region = t.Region)) = [] := by
      rw [List.filter_eq_nil_iff]
      intro x hx
      simp only [decide_eq_true_eq]
      intro hxr
      exact hin ((h3 t.Region).mpr (hxr ▸ List.mem_map_of_mem Transaction.Region hx))
    refine region_update_inv pre t _ ?_ (fun r => ?_) ?_ ?_
    · simp only [List.map_append, List.map_cons, List.map_nil]
      rw [List.nodup_append]
      exact ⟨h2, List.nodup_singleton _, fun a ha hb => hin (List.mem_singleton.mp hb ▸ ha)⟩
    · simp only [List.map_append, List.map_cons, List.map_nil, List.mem_append,
        List.mem_singleton]
      rw [h3 r]
    · intro p hp
      rcases List.mem_append.mp hp with hp1 | hp2
      · exact h4 p hp1
      · rcases List.mem_singleton.mp hp2 with rfl
        simp [hpre0]
    · simp only [List.map_append, List.map_cons, List.map_nil, List.sum_append]
      simpa using h5.trans h1

theorem region_fold_inv : ∀ (ts pre : List Transaction) (acc : List (Str × RegionAgg) × Rat),
    RegionInv pre acc → RegionInv (pre ++ ts) (ts.foldl regionStep acc) := by
  intro ts
  induction ts with
  | nil => intro pre acc h; simpa using h
  | cons t ts ih =>
    intro pre acc h
    have := ih (pre ++ [t]) (regionStep acc t) (regionStep_inv pre t acc h)
    simpa [List.append_assoc] using this

theorem region_pass_inv (ts : List Transaction) : RegionInv ts (region_stats_pass ts) := by
  have h0 : RegionInv [] (([], 0) : List (Str × RegionAgg) × Rat) :=
    ⟨by simp, by simp, by simp, by simp, by simp⟩
  simpa using region_fold_inv ts [] ([], 0) h0

theorem calculate_total_revenue_go (ts : List Transaction) :
    ∀ a : Rat, ts.foldl (fun acc t => acc + (t.Quantity : Rat) * t.UnitPrice) a =
      a + (ts.map transactionAmount).sum := by
  induction ts with
  | nil => intro a; simp
  | cons t ts ih =>
    intro a
    simp only [List.foldl_cons, List.map_cons, List.sum_cons, ih, transactionAmount]
    ring

theorem calculate_total_revenue_eq_sum (ts : List Transaction) :
    calculate_total_revenue ts = (ts.map transactionAmount).sum := by
  unfold calculate_total_revenue
  rw [calculate_total_revenue_go ts 0, zero_add]

/-- C2: the total revenue is the sum of the per-record contributions, and when
`region_wise_sales` returns a result, each region's `total_sales` and
`transaction_count` are the sum/count over the transactions of that region and
the regions' `total_sales` add up to the same total. -/
theorem claim_C2_aggregation_totals (ts : List Transaction) :
    calculate_total_revenue ts = (ts.map transactionAmount).sum ∧
    ∀ res, region_wise_sales ts = some res →
      ((res.map (fun p => p.2.total_sales)).sum = calculate_total_revenue ts ∧
       ∀ p ∈ res,
         p.2.total_sales =
           ((ts.filter (fun x => decide (x.Region = p.1))).map transactionAmount).sum ∧
         p.2.transaction_count = (ts.filter (fun x => decide (x.Region = p.1))).length) := by
  refine ⟨calculate_total_revenue_eq_sum ts, ?_⟩
  intro res hres
  obtain ⟨h1, h2, h3, h4, h5⟩ := region_pass_inv ts
  simp only [region_wise_sales] at hres
  split at hres
  · exact absurd hres (by simp)
  · rw [Option.some_inj] at hres
    subst hres
    have hperm :
        List.Perm
          (List.insertionSort salesGE
            ((region_stats_pass ts).1.map (fun p =>
              (p.1, { total_sales := p.2.total_sales
                      transaction_count := p.2.transaction_count
                      percentage :=
                        pyRound2 (p.2.total_sales / (region_stats_pass ts).2 * 100) :
                        RegionStats }))))
          ((region_stats_pass ts).1.map (fun p =>
              (p.1, { total_sales := p.2.total_sales
                      transaction_count := p.2.transaction_count
                      percentage :=
                        pyRound2 (p.2.total_sales / (region_stats_pass ts).2 * 100) :
                        RegionStats }))) :=
      List.perm_insertionSort salesGE _
    constructor
    · rw [(hperm.map (fun p => p.2.total_sales)).sum_eq]
      rw [List.map_map]
      rw [calculate_total_revenue_eq_sum, ← h1, ← h5]
      rfl
    · intro p hp
      have hp2 := hperm.mem_iff.mp hp
      rcases List.mem_map.mp hp2 with ⟨q, hq, rfl⟩
      exact h4 q hq


theorem productStep_keys (acc : List (Str × ProductStats)) (t : Transaction) :
    (productStep acc t).map Prod.fst =
      (if t.ProductName ∈ acc.map Prod.fst then acc.map Prod.fst
       else acc.map Prod.fst ++ [t.ProductName]) := by
  show (updateKey (ensureKey acc t.ProductName ⟨0, 0, 0⟩) t.ProductName
      (fun s => ⟨s.total_quantity + t.Quantity, s.total_revenue + transactionAmount t,
                 s.transaction_count + 1⟩)).map Prod.fst = _
  rw [updateKey_map_fst]
  unfold ensureKey
  by_cases h : t.ProductName ∈ acc.map Prod.fst
  · rw [if_pos ((any_fst_mem _ _).mpr h), if_pos h]
  · rw [if_neg (fun hc => h ((any_fst_mem _ _).mp hc)), if_neg h]
    simp

theorem product_fold_keys : ∀ (ts : List Transaction) (acc : List (Str × ProductStats)),
    ((ts.foldl productStep acc).map Prod.fst) =
      ts.foldl (fun ns t => if t.ProductName ∈ ns then ns else ns ++ [t.ProductName])
        (acc.map Prod.fst) := by
  intro ts
  induction ts with
  | nil => intro acc; rfl
  | cons t ts ih =>
    intro acc
    simp only [List.foldl_cons]
    rw [ih, productStep_keys]

theorem product_pass_keys (ts : List Transaction) :
    (product_stats_pass ts).map Prod.fst = firstOccurNames ts := by
  unfold product_stats_pass firstOccurNames
  simpa using product_fold_keys ts []

/-- C7: `top_selling_products` returns at most `n` products, in non-increasing
order of total quantity, and products of equal total quantity keep the order of
their first occurrence in the input (their names form a sublist of the
first-occurrence name order); `region_wise_sales` lists regions in
non-increasing order of `total_sales`. -/
theorem claim_C7_stable_sort_orders (ts : List Transaction) (n : Nat) (k : Int) :
    (top_selling_products ts n).length ≤ n ∧
    (top_selling_products ts n).Pairwise (fun a b => b.2.1 ≤ a.2.1) ∧
    List.Sublist
      (((top_selling_products ts n).filter (fun p => decide (p.2.1 = k))).map Prod.fst)
      (firstOccurNames ts) ∧
    ∀ res, region_wise_sales ts = some res →
      res.Pairwise (fun a b => b.2.total_sales ≤ a.2.total_sales) := by
  refine ⟨?_, ?_, ?_, ?_⟩
  · exact List.length_take_le n _
  · have hs := List.sorted_insertionSort qtyGE
      ((product_stats_pass ts).map (fun p => (p.1, p.2.total_quantity, p.2.total_revenue)))
    have ht : List.Sublist (top_selling_products ts n)
        (List.insertionSort qtyGE
          ((product_stats_pass ts).map (fun p => (p.1, p.2.total_quantity, p.2.total_revenue)))) :=
      List.take_sublist n _
    exact (hs.sublist ht).imp (fun h => h)
  · have hfe := insertionSort_filter_eq
      (r := qtyGE)
      ((product_stats_pass ts).map (fun p => (p.1, p.2.total_quantity, p.2.total_revenue)))
      (fun p => decide (p.2.1 = k))
      (fun a b ha hb => by
        have ha2 : a.2.1 = k := of_decide_eq_true ha
        have hb2 : b.2.1 = k := of_decide_eq_true hb
        show b.2.1 ≤ a.2.1
        rw [ha2, hb2])
    have h1 : List.Sublist ((top_selling_products ts n).filter (fun p => decide (p.2.1 = k)))
        ((List.insertionSort qtyGE
          ((product_stats_pass ts).map
            (fun p => (p.1, p.2.total_quantity, p.2.total_revenue)))).filter
          (fun p => decide (p.2.1 = k))) :=
      (List.take_sublist n _).filter _
    rw [hfe] at h1
    have h2 := (h1.trans (List.filter_sublist _)).map Prod.fst
    rw [List.map_map] at h2
    have h3 : ((product_stats_pass ts).map
        ((Prod.fst : Str × Int × Rat → Str) ∘
          (fun p => (p.1, p.2.total_quantity, p.2.total_revenue)))) =
        firstOccurNames ts := by
      rw [← product_pass_keys ts]
      rfl
    rw [h3] at h2
    exact h2
  · intro res hres
    simp only [region_wise_sales] at hres
    split at hres
    · exact absurd hres (by simp)
    · rw [Option.some_inj] at hres
      subst hres
      exact (List.sorted_insertionSort salesGE _).imp (fun h => h)



theorem claim_C2_witness :
    region_wise_sales [wTr] = some wRegionRes ∧
    ((wRegionRes.map (fun p => p.2.total_sales)).sum = calculate_total_revenue [wTr] ∧
     ∀ p ∈ wRegionRes,
       p.2.total_sales =
         (([wTr].filter (fun x => decide (x.Region = p.1))).map transactionAmount).sum ∧
       p.2.transaction_count = ([wTr].filter (fun x => decide (x.Region = p.1))).length) :=
  ⟨by decide, (claim_C2_aggregation_totals [wTr]).2 wRegionRes (by decide)⟩

theorem claim_C7_witness :
    region_wise_sales [wTr] = some wRegionRes ∧
    wRegionRes.Pairwise (fun a b => b.2.total_sales ≤ a.2.total_sales) :=
  ⟨by decide, (claim_C7_stable_sort_orders [wTr] 1 2).2.2.2 wRegionRes (by decide)⟩

theorem dropWhile_dropWhile (p : Char → Bool) (l : Str) :
    List.dropWhile p (List.dropWhile p l) = List.dropWhile p l := by
  induction l with
  | nil => rfl
  | cons a l ih =>
    by_cases h : p a
    · simp [List.dropWhile_cons, h, ih]
    · simp [List.dropWhile_cons, h]

theorem dropWhile_head_false (p : Char → Bool) :
    ∀ (l : Str) {a : Char} {t : Str}, List.dropWhile p l = a :: t → p a = false := by
  intro l
  induction l with
  | nil => intro a t h; exact absurd h (by simp)
  | cons b l ih =>
    intro a t h
    by_cases hb : p b
    · rw [List.dropWhile_cons, if_pos hb] at h
      exact ih h
    · rw [List.dropWhile_cons, if_neg hb] at h
      cases h
      exact Bool.eq_false_iff.mpr hb

theorem dropWhile_suffix (p : Char → Bool) (l : Str) :
    ∃ s, l = s ++ List.dropWhile p l := by
  induction l with
  | nil => exact ⟨[], rfl⟩
  | cons a l ih =>
    by_cases h : p a
    · rcases ih with ⟨s, hs⟩
      exact ⟨a :: s, by simp [List.dropWhile_cons, h, ← hs]⟩
    · exact ⟨[], by simp [List.dropWhile_cons, h]⟩

theorem dropWhile_eq_self_of_all (p : Char → Bool) (l : Str)
    (h : ∀ c ∈ l, p c = false) : List.dropWhile p l = l := by
  induction l with
  | nil => rfl
  | cons a l ih =>
    rw [List.dropWhile_cons, if_neg (by simp [h a (List.mem_cons_self a l)])]

theorem trimChars_no_ws (s : Str) (h : ∀ c ∈ s, isWS c = false) : trimChars s = s := by
  unfold trimChars
  rw [dropWhile_eq_self_of_all _ _ h,
      dropWhile_eq_self_of_all _ _ (fun c hc => h c (List.mem_reverse.mp hc)),
      List.reverse_reverse]

theorem trimChars_idem (s : Str) : trimChars (trimChars s) = trimChars s := by
  unfold trimChars
  set u := List.dropWhile isWS s with hu
  set v := List.dropWhile isWS u.reverse with hv
  have hstep1 : List.dropWhile isWS v.reverse = v.reverse := by
    cases hvr : v.reverse with
    | nil => rfl
    | cons a t =>
      rcases dropWhile_suffix isWS u.reverse with ⟨w, hw⟩
      rw [← hv] at hw
      have hu2 : u = v.reverse ++ w.reverse := by
        have := congrArg List.reverse hw
        simpa [List.reverse_append] using this
      have hua : List.dropWhile isWS s = a :: (t ++ w.reverse) := by
        rw [← hu, hu2, hvr]
        simp
      have hws : isWS a = false := dropWhile_head_false isWS s hua
      rw [List.dropWhile_cons, if_neg (by simp [hws])]
  have hvv : List.dropWhile isWS v = v := by
    rw [hv]
    exact dropWhile_dropWhile _ _
  rw [hstep1, List.reverse_reverse, hvv]

theorem splitOnChar_ne_nil (sep : Char) (l : Str) : splitOnChar sep l ≠ [] := by
  induction l with
  | nil => simp [splitOnChar]
  | cons c rest ih =>
    unfold splitOnChar
    by_cases h : c = sep
    · simp [h]
    · simp only [if_neg h]
      cases hr : splitOnChar sep rest with
      | nil => simp
      | cons f fs => simp

theorem splitOnChar_cons (sep c : Char) (l : Str) :
    splitOnChar sep (c :: l) =
      if c = sep then [] :: splitOnChar sep l
      else
        match splitOnChar sep l with
        | [] => [[c]]
        | f :: fs => (c :: f) :: fs := rfl

theorem splitOnChar_cons_sep (sep : Char) (l : Str) :
    splitOnChar sep (sep :: l) = [] :: splitOnChar sep l := by
  rw [splitOnChar_cons, if_pos rfl]

theorem splitOnChar_append (sep : Char) (f l : Str) (g : Str) (gs : List Str)
    (hf : sep ∉ f) (h : splitOnChar sep l = g :: gs) :
    splitOnChar sep (f ++ l) = (f ++ g) :: gs := by
  induction f with
  | nil => simpa using h
  | cons c f ih =>
    simp only [List.mem_cons, not_or] at hf
    rw [List.cons_append, splitOnChar_cons, if_neg (fun hc => hf.1 hc.symm), ih hf.2]
    rfl

theorem splitOnChar_not_mem (sep : Char) (l : Str) (h : sep ∉ l) :
    splitOnChar sep l = [l] := by
  have := splitOnChar_append sep l [] [] [] h (by simp [splitOnChar])
  simpa using this

theorem splitOnChar_join (sep : Char) :
    ∀ (fields : List Str), fields ≠ [] → (∀ f ∈ fields, sep ∉ f) →
      splitOnChar sep (joinSep sep fields) = fields := by
  intro fields
  induction fields with
  | nil => intro h; exact absurd rfl h
  | cons f fs ih =>
    intro _ hmem
    cases fs with
    | nil =>
      show splitOnChar sep f = [f]
      exact splitOnChar_not_mem sep f (hmem f (by simp))
    | cons g gs =>
      have hrest : splitOnChar sep (joinSep sep (g :: gs)) = g :: gs :=
        ih (by simp) (fun x hx => hmem x (List.mem_cons_of_mem f hx))
      show splitOnChar sep (f ++ sep :: joinSep sep (g :: gs)) = f :: g :: gs
      rw [splitOnChar_append sep f _ [] (g :: gs) (hmem f (by simp))
          (by rw [splitOnChar_cons_sep, hrest])]
      simp

theorem mem_splitOnChar_not_mem (sep : Char) :
    ∀ (l : Str) (f : Str), f ∈ splitOnChar sep l → sep ∉ f := by
  intro l
  induction l with
  | nil =>
    intro f hf
    simp only [splitOnChar, List.mem_singleton] at hf
    simp [hf]
  | cons c rest ih =>
    intro f hf
    by_cases h : c = sep
    · subst h
      rw [splitOnChar_cons_sep] at hf
      rcases List.mem_cons.mp hf with rfl | hf2
      · simp
      · exact ih f hf2
    · rw [splitOnChar_cons, if_neg h] at hf
      cases hr : splitOnChar sep rest with
      | nil => exact absurd hr (splitOnChar_ne_nil sep rest)
      | cons g gs =>
        rw [hr] at hf
        rcases List.mem_cons.mp hf with rfl | hf2
        · intro hc
          rcases List.mem_cons.mp hc with rfl | hc2
          · exact h rfl
          · exact ih g (hr ▸ List.mem_cons_self g gs) hc2
        · exact ih f (hr ▸ List.mem_cons_of_mem g hf2)

theorem natToDigitsF_spec : ∀ (n fuel : Nat) (acc : Str), n < fuel →
    natToDigitsF fuel n acc = natToDigits n ++ acc := by
  intro n
  induction n using Nat.strong_induction_on with
  | _ n ih =>
    intro fuel acc hf
    match fuel, hf with
    | fuel + 1, _ =>
      by_cases h10 : n < 10
      · simp [natToDigitsF, h10, natToDigits]
      · have hlt : n / 10 < n := Nat.div_lt_self (by omega) (by omega)
        have h1 : natToDigitsF (fuel + 1) n acc =
            natToDigitsF fuel (n / 10) (natDigitChar (n % 10) :: acc) := by
          rw [natToDigitsF, if_neg h10]
        have h2 : natToDigits n = natToDigitsF n (n / 10) [natDigitChar (n % 10)] := by
          rw [natToDigits, natToDigitsF, if_neg h10]
        rw [h1, ih (n / 10) hlt fuel _ (by omega), h2,
            ih (n / 10) hlt n _ (by omega)]
        simp

theorem digitsToNat_go (l : Str) :
    ∀ i : Nat, l.foldl (fun a c => a * 10 + digToNat c) i =
      i * 10 ^ l.length + digitsToNat l := by
  induction l with
  | nil => intro i; simp [digitsToNat]
  | cons c l ih =>
    intro i
    have hd : digitsToNat (c :: l) = digToNat c * 10 ^ l.length + digitsToNat l := by
      show (c :: l).foldl (fun a c => a * 10 + digToNat c) 0 = _
      rw [List.foldl_cons, ih]
      ring_nf
    rw [List.foldl_cons, ih, hd, List.length_cons]
    ring

theorem digitsToNat_append (a b : Str) :
    digitsToNat (a ++ b) = digitsToNat a * 10 ^ b.length + digitsToNat b := by
  show (a ++ b).foldl (fun a c => a * 10 + digToNat c) 0 = _
  rw [List.foldl_append, digitsToNat_go b]
  rfl

theorem digToNat_natDigitChar (d : Nat) (h : d < 10) :
    digToNat (natDigitChar d) = d := by
  interval_cases d <;> rfl

theorem natDigitChar_isDigit (d : Nat) : (natDigitChar d).isDigit = true := by
  unfold natDigitChar
  split_ifs <;> rfl

theorem natToDigits_all_digits (n : Nat) : ∀ c ∈ natToDigits n, c.isDigit = true := by
  induction n using Nat.strong_induction_on with
  | _ n ih =>
    by_cases h10 : n < 10
    · intro c hc
      rw [natToDigits, natToDigitsF, if_pos h10] at hc
      rcases List.mem_singleton.mp hc with rfl
      exact natDigitChar_isDigit n
    · have hlt : n / 10 < n := Nat.div_lt_self (by omega) (by omega)
      intro c hc
      rw [natToDigits, natToDigitsF, if_neg h10,
          natToDigitsF_spec (n / 10) n _ hlt] at hc
      rcases List.mem_append.mp hc with hc1 | hc2
      · exact ih (n / 10) hlt c hc1
      · rcases List.mem_singleton.mp hc2 with rfl
        exact natDigitChar_isDigit _

theorem digitsToNat_natToDigits (n : Nat) : digitsToNat (natToDigits n) = n := by
  induction n using Nat.strong_induction_on with
  | _ n ih =>
    by_cases h10 : n < 10
    · rw [natToDigits, natToDigitsF, if_pos h10]
      show digitsToNat [natDigitChar n] = n
      unfold digitsToNat
      simp [List.foldl_cons, digToNat_natDigitChar n h10]
    · have hlt : n / 10 < n := Nat.div_lt_self (by omega) (by omega)
      rw [natToDigits, natToDigitsF, if_neg h10, natToDigitsF_spec (n / 10) n _ hlt,
          digitsToNat_append]
      have h1 : digitsToNat [natDigitChar (n % 10)] = n % 10 := by
        unfold digitsToNat
        simp [List.foldl_cons, digToNat_natDigitChar _ (by omega : n % 10 < 10)]
      rw [ih (n / 10) hlt, h1]
      simp
      omega

theorem natToDigits_ne_nil (n : Nat) : natToDigits n ≠ [] := by
  by_cases h10 : n < 10
  · rw [natToDigits, natToDigitsF, if_pos h10]
    simp
  · have hlt : n / 10 < n := Nat.div_lt_self (by omega) (by omega)
    rw [natToDigits, natToDigitsF, if_neg h10, natToDigitsF_spec (n / 10) n _ hlt]
    simp

theorem ne_of_isDigit {c : Char} (h : c.isDigit = true) {d : Char}
    (hd : d.isDigit = false) : c ≠ d := by
  intro he
  rw [he, hd] at h
  exact Bool.noConfusion h

theorem isDigit_not_ws {c : Char} (h : c.isDigit = true) : isWS c = false := by
  cases hc : isWS c with
  | false => rfl
  | true =>
    exfalso
    simp only [isWS, Bool.or_eq_true, decide_eq_true_eq] at hc
    rcases hc with ((rfl | rfl) | rfl) | rfl <;> exact Bool.noConfusion h

theorem parseSign_neg (l : Str) : parseSign ('-' :: l) = (-1, l) := by
  simp [parseSign]

theorem parseSign_digit (c : Char) (l : Str) (h : c.isDigit = true) :
    parseSign (c :: l) = (1, c :: l) := by
  simp only [parseSign]
  rw [if_neg (ne_of_isDigit h (by decide)), if_neg (ne_of_isDigit h (by decide))]

theorem allDigits_of_mem (l : Str) (h : ∀ c ∈ l, c.isDigit = true) :
    allDigits l = true := by
  unfold allDigits
  exact List.all_eq_true.mpr h

theorem pyInt_eval (s : Str) (sg : Int) (ds : Str) (h1 : trimChars s = s)
    (h2 : parseSign s = (sg, ds)) (h3 : ds ≠ []) (h4 : allDigits ds = true) :
    pyInt s = some (sg * digitsToNat ds) := by
  simp only [pyInt, h1, h2]
  rw [if_pos ⟨h3, h4⟩]

theorem pyInt_renderInt (n : Int) : pyInt (renderInt n) = some n := by
  have hall := natToDigits_all_digits n.natAbs
  by_cases hn : n < 0
  · have hr : renderInt n = '-' :: natToDigits n.natAbs := by
      unfold renderInt
      rw [if_pos hn]
      rfl
    rw [hr]
    have htrim : trimChars ('-' :: natToDigits n.natAbs) = '-' :: natToDigits n.natAbs :=
      trimChars_no_ws _ (by
        intro c hc
        rcases List.mem_cons.mp hc with rfl | hc2
        · rfl
        · exact isDigit_not_ws (hall c hc2))
    rw [pyInt_eval _ (-1) (natToDigits n.natAbs) htrim (parseSign_neg _)
        (natToDigits_ne_nil _) (allDigits_of_mem _ hall)]
    rw [digitsToNat_natToDigits]
    congr 1
    omega
  · have hr : renderInt n = natToDigits n.natAbs := by
      unfold renderInt
      rw [if_neg hn]
      rfl
    rw [hr]
    cases hds : natToDigits n.natAbs with
    | nil => exact absurd hds (natToDigits_ne_nil _)
    | cons c rest =>
      have hcd : c.isDigit = true := hall c (hds ▸ List.mem_cons_self c rest)
      have htrim : trimChars (c :: rest) = c :: rest :=
        trimChars_no_ws _ (by
          intro x hx
          exact isDigit_not_ws (hall x (hds ▸ hx)))
      rw [pyInt_eval _ 1 (c :: rest) htrim (parseSign_digit c rest hcd) (by simp)
          (allDigits_of_mem _ (fun x hx => hall x (hds ▸ hx)))]
      rw [← hds, digitsToNat_natToDigits]
      congr 1
      omega

theorem prime_dvd_ten {p : Nat} (hp : p.Prime) (hd : p ∣ 10) : p = 2 ∨ p = 5 := by
  have h2 : 2 ≤ p := hp.two_le
  have h10 : p ≤ 10 := Nat.le_of_dvd (by norm_num) hd
  interval_cases p <;> revert hp hd <;> decide

theorem pow2_pow5_decomp : ∀ d : Nat, 0 < d → (∀ p : Nat, p.Prime → p ∣ d → p = 2 ∨ p = 5) →
    ∃ a b : Nat, d = 2 ^ a * 5 ^ b := by
  intro d
  induction d using Nat.strong_induction_on with
  | _ d ih =>
    intro hd hp
    by_cases h1 : d = 1
    · exact ⟨0, 0, by simp [h1]⟩
    · obtain ⟨p, hpp, hpd⟩ := Nat.exists_prime_and_dvd h1
      have hp2 : 2 ≤ p := hpp.two_le
      have hddlt : d / p < d := Nat.div_lt_self hd (by omega)
      have hdpos : 0 < d / p := Nat.div_pos (Nat.le_of_dvd hd hpd) (by omega)
      have hrec : ∀ q : Nat, q.Prime → q ∣ d / p → q = 2 ∨ q = 5 :=
        fun q hq hqd => hp q hq (hqd.trans (Nat.div_dvd_of_dvd hpd))
      obtain ⟨a, b, hab⟩ := ih (d / p) hddlt hdpos hrec
      have hdp : d = p * (d / p) := (Nat.mul_div_cancel' hpd).symm
      rcases hp p hpp hpd with rfl | rfl
      · exact ⟨a + 1, b, by rw [hdp, hab]; ring⟩
      · exact ⟨a, b + 1, by rw [hdp, hab]; ring⟩

theorem den_dvd_pow_ten_self {d : Nat} (hd : 0 < d) {K : Nat} (h : d ∣ 10 ^ K) :
    d ∣ 10 ^ d := by
  obtain ⟨a, b, hab⟩ := pow2_pow5_decomp d hd
    (fun p hp hpd => prime_dvd_ten hp (hp.dvd_of_dvd_pow (hpd.trans h)))
  have ha : 2 ^ a ≤ d := Nat.le_of_dvd hd ⟨5 ^ b, hab⟩
  have ha2 : a ≤ d := le_trans (Nat.le_of_lt (Nat.lt_two_pow a)) ha
  have hb : 5 ^ b ≤ d := Nat.le_of_dvd hd ⟨2 ^ a, by rw [hab]; ring⟩
  have hb2 : b ≤ d := le_trans (le_of_lt (Nat.lt_pow_self (by norm_num) b)) hb
  calc d = 2 ^ a * 5 ^ b := hab
  _ ∣ 2 ^ d * 5 ^ d := mul_dvd_mul (pow_dvd_pow 2 ha2) (pow_dvd_pow 5 hb2)
  _ = 10 ^ d := by rw [← Nat.mul_pow]

theorem den_dvd_of_eq_div (x : Rat) (z : Int) (N : Nat)
    (h : x = (z : Rat) / ((10 : Rat) ^ N)) : x.den ∣ 10 ^ N := by
  have h2 : x = Rat.divInt z (10 ^ N) := by
    rw [Rat.divInt_eq_div, h]
    push_cast
    rfl
  have h3 := Rat.den_dvd z (10 ^ N)
  rw [← h2] at h3
  have h4 : (x.den : Int) ∣ ((10 ^ N : Nat) : Int) := by
    push_cast
    exact h3
  exact_mod_cast h4

theorem pyFloat_den_dvd (s : Str) (q : Rat) (h : pyFloat s = some q) :
    ∃ K, q.den ∣ 10 ^ K := by
  simp only [pyFloat] at h
  split at h
  · rcases Option.map_eq_some.mp h with ⟨p, hp, hv⟩
    refine ⟨p.2, den_dvd_of_eq_div q ((parseSign (trimChars s)).1 * p.1) p.2 ?_⟩
    rw [← hv]
    push_cast
    ring
  · split at h
    · rw [Option.some_inj] at h
      rename_i mant ex p e hpm hpe
      rcases Int.eq_nat_or_neg e with ⟨n, hn | hn⟩
      · refine ⟨p.2, den_dvd_of_eq_div q ((parseSign (trimChars s)).1 * p.1 * 10 ^ n) p.2 ?_⟩
        rw [← h, hn]
        rw [zpow_natCast]
        push_cast
        ring
      · refine ⟨p.2 + n,
          den_dvd_of_eq_div q ((parseSign (trimChars s)).1 * p.1) (p.2 + n) ?_⟩
        rw [← h, hn]
        rw [zpow_neg, zpow_natCast]
        push_cast [pow_add]
        field_simp
    · exact absurd h (by simp)
  · exact absurd h (by simp)

theorem map_eE_id (l : Str) (h : ∀ c ∈ l, c ≠ 'E') :
    l.map (fun c => if c = 'E' then 'e' else c) = l := by
  induction l with
  | nil => rfl
  | cons c l ih =>
    rw [List.map_cons, if_neg (h c (List.mem_cons_self c l)),
        ih (fun x hx => h x (List.mem_cons_of_mem c hx))]

theorem parseMantVal_eval (ip fp : Str) (hip : ip ≠ [])
    (hipd : allDigits ip = true) (hfpd : allDigits fp = true)
    (hdot_ip : ('.' : Char) ∉ ip) (hdot_fp : ('.' : Char) ∉ fp) :
    parseMantVal (ip ++ '.' :: fp) =
      some (digitsToNat ip * 10 ^ fp.length + digitsToNat fp, fp.length) := by
  unfold parseMantVal
  rw [splitOnChar_append '.' ip ('.' :: fp) [] [fp] hdot_ip
      (by rw [splitOnChar_cons_sep, splitOnChar_not_mem '.' fp hdot_fp])]
  simp only [List.append_nil]
  rw [if_pos ⟨Or.inl hip, hipd, hfpd⟩]

theorem pyFloat_eval (s : Str) (sg : Int) (r : Str) (mNum fLen : Nat)
    (h1 : trimChars s = s) (h2 : parseSign s = (sg, r))
    (h3 : ∀ c ∈ r, c ≠ 'E') (h4 : ('e' : Char) ∉ r)
    (h5 : parseMantVal r = some (mNum, fLen)) :
    pyFloat s = some ((sg : Rat) * (mNum : Rat) / 10 ^ fLen) := by
  simp only [pyFloat, h1, h2]
  rw [map_eE_id r h3, splitOnChar_not_mem 'e' r h4]
  show Option.map (fun q => (sg : Rat) * (q.1 : Rat) / 10 ^ q.2) (parseMantVal r) =
    some ((sg : Rat) * (mNum : Rat) / 10 ^ fLen)
  rw [h5]
  rfl

theorem digitsToNat_replicate_zero (z : Nat) :
    digitsToNat (List.replicate z '0') = 0 := by
  induction z with
  | zero => rfl
  | succ z ih =>
    rw [List.replicate_succ]
    show (('0' :: List.replicate z '0').foldl (fun a c => a * 10 + digToNat c) 0) = 0
    rw [List.foldl_cons, digitsToNat_go, ih]
    have h0 : digToNat '0' = 0 := rfl
    rw [h0]
    ring

theorem pyFloat_renderRat (q : Rat) (K : Nat) (hK : q.den ∣ 10 ^ K) :
    pyFloat (renderRat q) = some q := by
  have hdpos : 0 < q.den := q.pos
  have hdvd : q.den ∣ 10 ^ q.den := den_dvd_pow_ten_self hdpos hK
  set d := q.den with hd
  set m := q.num.natAbs with hm
  set M := m * 10 ^ d / d with hM
  have hMd : M * d = m * 10 ^ d := Nat.div_mul_cancel (hdvd.mul_left m)
  set ds₀ := natToDigits M with hds₀
  set ds := if ds₀.length ≤ d then List.replicate (d + 1 - ds₀.length) '0' ++ ds₀ else ds₀
    with hds
  have hdsd : ∀ c ∈ ds, c.isDigit = true := by
    intro c hc
    rw [hds] at hc
    split at hc
    · rcases List.mem_append.mp hc with hc1 | hc2
      · rw [List.eq_of_mem_replicate hc1]
        rfl
      · exact natToDigits_all_digits M c hc2
    · exact natToDigits_all_digits M c hc
  have hlen : d < ds.length := by
    rw [hds]
    split
    · rename_i hle
      rw [List.length_append, List.length_replicate]
      omega
    · rename_i hgt
      omega
  have hdsM : digitsToNat ds = M := by
    rw [hds]
    split
    · rw [digitsToNat_append, digitsToNat_replicate_zero, digitsToNat_natToDigits]
      simp
    · exact digitsToNat_natToDigits M
  set ip := ds.take (ds.length - d) with hip
  set fp := ds.drop (ds.length - d) with hfp
  have hipfp : ip ++ fp = ds := List.take_append_drop _ _
  have hiplen : ip.length = ds.length - d := by rw [hip, List.length_take]; omega
  have hipne : ip ≠ [] := by
    intro hnil
    have h0 := congrArg List.length hnil
    rw [hiplen] at h0
    simp at h0
    omega
  have hfplen : fp.length = d := by
    rw [hfp, List.length_drop]
    omega
  have hipd : ∀ c ∈ ip, c.isDigit = true :=
    fun c hc => hdsd c (hipfp ▸ List.mem_append.mpr (Or.inl hc))
  have hfpd : ∀ c ∈ fp, c.isDigit = true :=
    fun c hc => hdsd c (hipfp ▸ List.mem_append.mpr (Or.inr hc))
  have hvalM : digitsToNat ip * 10 ^ fp.length + digitsToNat fp = M := by
    rw [← digitsToNat_append, hipfp, hdsM]
  have hmant : parseMantVal (ip ++ '.' :: fp) = some (M, d) := by
    rw [parseMantVal_eval ip fp hipne (allDigits_of_mem ip hipd) (allDigits_of_mem fp hfpd)
        (fun hc => Bool.noConfusion ((by rfl : ('.' : Char).isDigit = false) ▸ hipd '.' hc))
        (fun hc => Bool.noConfusion ((by rfl : ('.' : Char).isDigit = false) ▸ hfpd '.' hc)),
        hvalM, hfplen]
  have hrestE : ∀ c ∈ ip ++ '.' :: fp, c ≠ 'E' := by
    intro c hc
    rcases List.mem_append.mp hc with hc1 | hc2
    · exact ne_of_isDigit (hipd c hc1) (by rfl)
    · rcases List.mem_cons.mp hc2 with rfl | hc3
      · decide
      · exact ne_of_isDigit (hfpd c hc3) (by rfl)
  have hreste : ('e' : Char) ∉ ip ++ '.' :: fp := by
    intro hc
    rcases List.mem_append.mp hc with hc1 | hc2
    · exact Bool.noConfusion ((by rfl : ('e' : Char).isDigit = false) ▸ hipd 'e' hc1)
    · rcases List.mem_cons.mp hc2 with he | hc3
      · exact absurd he (by decide)
      · exact Bool.noConfusion ((by rfl : ('e' : Char).isDigit = false) ▸ hfpd 'e' hc3)
  have hrestWS : ∀ c ∈ ip ++ '.' :: fp, isWS c = false := by
    intro c hc
    rcases List.mem_append.mp hc with hc1 | hc2
    · exact isDigit_not_ws (hipd c hc1)
    · rcases List.mem_cons.mp hc2 with rfl | hc3
      · rfl
      · exact isDigit_not_ws (hfpd c hc3)
  have hrend : renderRat q = (if q < 0 then ['-'] else []) ++ (ip ++ '.' :: fp) := by
    show (if q < 0 then ['-'] else []) ++
        ds.take (ds.length - d) ++ '.' :: ds.drop (ds.length - d) =
      (if q < 0 then ['-'] else []) ++ (ip ++ '.' :: fp)
    rw [List.append_assoc]
  have hten : ((10 : Rat) ^ d) ≠ 0 := pow_ne_zero d (by norm_num)
  have hdq : ((d : Rat)) ≠ 0 := by
    rw [hd]
    exact_mod_cast Nat.pos_iff_ne_zero.mp hdpos
  have hMQ : (M : Rat) * d = (m : Rat) * 10 ^ d := by exact_mod_cast hMd
  by_cases hneg : q < 0
  · have hrend2 : renderRat q = '-' :: (ip ++ '.' :: fp) := by
      rw [hrend, if_pos hneg]
      rfl
    rw [hrend2]
    have htrim : trimChars ('-' :: (ip ++ '.' :: fp)) = '-' :: (ip ++ '.' :: fp) :=
      trimChars_no_ws _ (by
        intro c hc
        rcases List.mem_cons.mp hc with rfl | hc2
        · rfl
        · exact hrestWS c hc2)
    rw [pyFloat_eval _ (-1) (ip ++ '.' :: fp) M d htrim (parseSign_neg _) hrestE hreste hmant]
    have hZ : (m : Int) = -q.num := by
      rw [hm]
      have hn0 : q.num < 0 := by
        by_contra hc
        push_neg at hc
        exact absurd (Rat.num_nonneg.mp hc) (not_le.mpr hneg)
      omega
    have hnum : (q.num : Rat) = -(m : Rat) := by
      have h1 := congrArg (fun z : Int => (z : Rat)) hZ
      push_cast at h1
      linarith
    have hq : q = -(m : Rat) / d := by
      rw [← hnum, hd]
      exact_mod_cast (Rat.num_div_den q).symm
    rw [hq]
    congr 1
    rw [div_eq_div_iff hten hdq]
    push_cast
    linear_combination (-1 : Rat) * hMQ
  · cases hipc : ip with
    | nil => exact absurd hipc hipne
    | cons c rest =>
      have hrend2 : renderRat q = c :: (rest ++ '.' :: fp) := by
        rw [hrend, if_neg hneg, hipc]
        rfl
      have hcd : c.isDigit = true := hipd c (hipc ▸ List.mem_cons_self c rest)
      have heq : c :: (rest ++ '.' :: fp) = ip ++ '.' :: fp := by rw [hipc]; rfl
      rw [hrend2]
      have htrim : trimChars (c :: (rest ++ '.' :: fp)) = c :: (rest ++ '.' :: fp) :=
        trimChars_no_ws _ (by
          intro x hx
          rw [heq] at hx
          exact hrestWS x hx)
      have hps : parseSign (c :: (rest ++ '.' :: fp)) = (1, c :: (rest ++ '.' :: fp)) :=
        parseSign_digit c _ hcd
      rw [pyFloat_eval _ 1 (c :: (rest ++ '.' :: fp)) M d htrim hps
          (heq ▸ hrestE) (heq ▸ hreste) (heq ▸ hmant)]
      have hZ : (m : Int) = q.num := by
        rw [hm]
        have hn0 : 0 ≤ q.num := Rat.num_nonneg.mpr (not_lt.mp hneg)
        omega
      have hnum : (q.num : Rat) = (m : Rat) := by
        have h1 := congrArg (fun z : Int => (z : Rat)) hZ
        push_cast at h1
        linarith
      have hq : q = (m : Rat) / d := by
        rw [← hnum, hd]
        exact_mod_cast (Rat.num_div_den q).symm
      rw [hq]
      congr 1
      rw [div_eq_div_iff hten hdq]
      push_cast
      linear_combination hMQ

theorem mem_trimChars {c : Char} {s : Str} (h : c ∈ trimChars s) : c ∈ s := by
  unfold trimChars at h
  rw [List.mem_reverse] at h
  have h1 := (List.dropWhile_sublist _).subset h
  rw [List.mem_reverse] at h1
  exact (List.dropWhile_sublist (l := s) isWS).subset h1

theorem mem_removeCommas {c : Char} {s : Str} (h : c ∈ removeCommas s) : c ∈ s :=
  (List.filter_sublist s).subset h

theorem removeCommas_no_comma (s : Str) (h : (',' : Char) ∉ s) : removeCommas s = s :=
  List.filter_eq_self.mpr (fun c hc => by
    simp only [decide_eq_true_eq]
    intro he
    exact h (he ▸ hc))

theorem removeCommas_idem (s : Str) : removeCommas (removeCommas s) = removeCommas s :=
  removeCommas_no_comma _ (fun hc => by
    have := List.mem_filter.mp hc
    simp at this)

theorem mem_renderInt {n : Int} {c : Char} (hc : c ∈ renderInt n) :
    c = '-' ∨ c.isDigit = true := by
  unfold renderInt at hc
  rcases List.mem_append.mp hc with hc1 | hc2
  · split at hc1
    · rcases List.mem_singleton.mp hc1 with rfl
      exact Or.inl rfl
    · exact absurd hc1 (List.not_mem_nil c)
  · exact Or.inr (natToDigits_all_digits _ c hc2)

theorem mem_renderRat {q : Rat} {c : Char} (hc : c ∈ renderRat q) :
    c = '-' ∨ c = '.' ∨ c.isDigit = true := by
  simp only [renderRat] at hc
  have hds : ∀ x ∈ (if (natToDigits (q.num.natAbs * 10 ^ q.den / q.den)).length ≤ q.den then
      List.replicate (q.den + 1 - (natToDigits (q.num.natAbs * 10 ^ q.den / q.den)).length) '0' ++
        natToDigits (q.num.natAbs * 10 ^ q.den / q.den)
      else natToDigits (q.num.natAbs * 10 ^ q.den / q.den)), x.isDigit = true := by
    intro x hx
    split at hx
    · rcases List.mem_append.mp hx with hx1 | hx2
      · rw [List.eq_of_mem_replicate hx1]
        rfl
      · exact natToDigits_all_digits _ x hx2
    · exact natToDigits_all_digits _ x hx
  rcases List.mem_append.mp hc with hc1 | hc2
  · rcases List.mem_append.mp hc1 with hc3 | hc4
    · split at hc3
      · rcases List.mem_singleton.mp hc3 with rfl
        exact Or.inl rfl
      · exact absurd hc3 (List.not_mem_nil c)
    · exact Or.inr (Or.inr (hds c (List.take_subset _ _ hc4)))
  · rcases List.mem_cons.mp hc2 with rfl | hc5
    · exact Or.inr (Or.inl rfl)
    · exact Or.inr (Or.inr (hds c (List.drop_subset _ _ hc5)))

theorem parseLine_some_elim {l : Str} {t : Transaction} (h : parseLine l = some t) :
    (splitOnChar '|' l).length = 8 ∧
    t.TransactionID = trimChars ((splitOnChar '|' l).getD 0 []) ∧
    t.Date = trimChars ((splitOnChar '|' l).getD 1 []) ∧
    t.ProductID = trimChars ((splitOnChar '|' l).getD 2 []) ∧
    t.ProductName = removeCommas (trimChars ((splitOnChar '|' l).getD 3 [])) ∧
    pyInt (removeCommas (trimChars ((splitOnChar '|' l).getD 4 []))) = some t.Quantity ∧
    pyFloat (removeCommas (trimChars ((splitOnChar '|' l).getD 5 []))) = some t.UnitPrice ∧
    t.CustomerID = trimChars ((splitOnChar '|' l).getD 6 []) ∧
    t.Region = trimChars ((splitOnChar '|' l).getD 7 []) := by
  simp only [parseLine] at h
  split at h
  · rename_i h8
    split at h
    · rename_i q p hq hp
      rw [Option.some_inj] at h
      subst h
      exact ⟨h8, rfl, rfl, rfl, rfl, hq, hp, rfl, rfl⟩
    · exact absurd h (by simp)
  · exact absurd h (by simp)

theorem getD_mem_of_lt {α : Type} (l : List α) (i : Nat) (d : α) (h : i < l.length) :
    l.getD i d ∈ l := by
  rw [List.getD_eq_getElem?_getD, List.getElem?_eq_getElem h]
  exact List.getElem_mem h

theorem serializeTransaction_fields_no_pipe {l : Str} {t : Transaction}
    (h : parseLine l = some t) :
    ∀ f ∈ [t.TransactionID, t.Date, t.ProductID, t.ProductName,
           renderInt t.Quantity, renderRat t.UnitPrice, t.CustomerID, t.Region],
      ('|' : Char) ∉ f := by
  obtain ⟨h8, h0, h1, h2, h3, h4, h5, h6, h7⟩ := parseLine_some_elim h
  have hfield : ∀ i : Nat, i < 8 → ('|' : Char) ∉ (splitOnChar '|' l).getD i [] := by
    intro i hi
    exact mem_splitOnChar_not_mem '|' l _ (getD_mem_of_lt _ i [] (by omega))
  have htext : ∀ (i : Nat), i < 8 → ('|' : Char) ∉ trimChars ((splitOnChar '|' l).getD i []) :=
    fun i hi hc => hfield i hi (mem_trimChars hc)
  intro f hf
  simp only [List.mem_cons, List.not_mem_nil, or_false] at hf
  rcases hf with rfl | rfl | rfl | rfl | rfl | rfl | rfl | rfl
  · rw [h0]; exact htext 0 (by omega)
  · rw [h1]; exact htext 1 (by omega)
  · rw [h2]; exact htext 2 (by omega)
  · rw [h3]
    intro hc
    exact htext 3 (by omega) (mem_removeCommas hc)
  · intro hc
    rcases mem_renderInt hc with he | hd
    · exact absurd he (by decide)
    · exact Bool.noConfusion ((by rfl : ('|' : Char).isDigit = false) ▸ hd)
  · intro hc
    rcases mem_renderRat hc with he | he | hd
    · exact absurd he (by decide)
    · exact absurd he (by decide)
    · exact Bool.noConfusion ((by rfl : ('|' : Char).isDigit = false) ▸ hd)
  · rw [h6]; exact htext 6 (by omega)
  · rw [h7]; exact htext 7 (by omega)

theorem parseLine_build (f0 f1 f2 f3 f4 f5 f6 f7 : Str) (line : Str)
    (hsp : splitOnChar '|' line = [f0, f1, f2, f3, f4, f5, f6, f7])
    (q : Int) (p : Rat)
    (hq : pyInt (removeCommas (trimChars f4)) = some q)
    (hp : pyFloat (removeCommas (trimChars f5)) = some p) :
    parseLine line = some
      { TransactionID := trimChars f0
        Date := trimChars f1
        ProductID := trimChars f2
        ProductName := removeCommas (trimChars f3)
        Quantity := q
        UnitPrice := p
        CustomerID := trimChars f6
        Region := trimChars f7 } := by
  have hg4 : ([f0, f1, f2, f3, f4, f5, f6, f7] : List Str).getD 4 [] = f4 := rfl
  have hg5 : ([f0, f1, f2, f3, f4, f5, f6, f7] : List Str).getD 5 [] = f5 := rfl
  simp only [parseLine, hsp, hg4, hg5]
  rw [if_pos (by rfl), hq, hp]
  rfl

set_option maxHeartbeats 2000000 in
theorem parseLine_serialize {l : Str} {t : Transaction} (h : parseLine l = some t)
    (hpn : trimChars t.ProductName = t.ProductName) :
    parseLine (serializeTransaction t) = some t := by
  obtain ⟨h8, h0, h1, h2, h3, h4, h5, h6, h7⟩ := parseLine_some_elim h
  obtain ⟨K, hKd⟩ := pyFloat_den_dvd _ _ h5
  have hsplit : splitOnChar '|' (serializeTransaction t) =
      [t.TransactionID, t.Date, t.ProductID, t.ProductName,
       renderInt t.Quantity, renderRat t.UnitPrice, t.CustomerID, t.Region] := by
    unfold serializeTransaction
    exact splitOnChar_join '|' _ (by simp) (serializeTransaction_fields_no_pipe h)
  have hIntWS : ∀ c ∈ renderInt t.Quantity, isWS c = false := by
    intro c hc
    rcases mem_renderInt hc with rfl | hd
    · rfl
    · exact isDigit_not_ws hd
  have hRatWS : ∀ c ∈ renderRat t.UnitPrice, isWS c = false := by
    intro c hc
    rcases mem_renderRat hc with rfl | rfl | hd
    · rfl
    · rfl
    · exact isDigit_not_ws hd
  have hIntNC : (',' : Char) ∉ renderInt t.Quantity := by
    intro hc
    rcases mem_renderInt hc with he | hd
    · exact absurd he (by decide)
    · exact Bool.noConfusion ((by rfl : (',' : Char).isDigit = false) ▸ hd)
  have hRatNC : (',' : Char) ∉ renderRat t.UnitPrice := by
    intro hc
    rcases mem_renderRat hc with he | he | hd
    · exact absurd he (by decide)
    · exact absurd he (by decide)
    · exact Bool.noConfusion ((by rfl : (',' : Char).isDigit = false) ▸ hd)
  have eq4 : removeCommas (trimChars (renderInt t.Quantity)) = renderInt t.Quantity := by
    rw [trimChars_no_ws _ hIntWS, removeCommas_no_comma _ hIntNC]
  have eq5 : removeCommas (trimChars (renderRat t.UnitPrice)) = renderRat t.UnitPrice := by
    rw [trimChars_no_ws _ hRatWS, removeCommas_no_comma _ hRatNC]
  have hq : pyInt (removeCommas (trimChars (renderInt t.Quantity))) = some t.Quantity := by
    rw [eq4, pyInt_renderInt]
  have hp : pyFloat (removeCommas (trimChars (renderRat t.UnitPrice))) = some t.UnitPrice := by
    rw [eq5, pyFloat_renderRat t.UnitPrice K hKd]
  rw [parseLine_build t.TransactionID t.Date t.ProductID t.ProductName
      (renderInt t.Quantity) (renderRat t.UnitPrice) t.CustomerID t.Region
      (serializeTransaction t) hsplit t.Quantity t.UnitPrice hq hp]
  congr 1
  have e0 : trimChars t.TransactionID = t.TransactionID := by
    rw [h0]
    exact trimChars_idem _
  have e1 : trimChars t.Date = t.Date := by
    rw [h1]
    exact trimChars_idem _
  have e2 : trimChars t.ProductID = t.ProductID := by
    rw [h2]
    exact trimChars_idem _
  have e3 : removeCommas (trimChars t.ProductName) = t.ProductName := by
    rw [hpn]
    conv_rhs => rw [h3]
    rw [h3, removeCommas_idem]
  have e6 : trimChars t.CustomerID = t.CustomerID := by
    rw [h6]
    exact trimChars_idem _
  have e7 : trimChars t.Region = t.Region := by
    rw [h7]
    exact trimChars_idem _
  rw [e0, e1, e2, e3, e6, e7]

/-- C5: parsing is total (never raises), returns at most one record per line in
order, and drops exactly the lines that do not split into 8 pipe-delimited
fields or whose Quantity/UnitPrice fields fail `int()`/`float()` conversion
after stripping and comma removal; each kept record is a full `Transaction`
with an integer `Quantity` and a rational (float) `UnitPrice` by construction. -/
theorem claim_C5_parse_skips_malformed (lines : List Str) :
    (parse_transactions lines).length ≤ lines.length ∧
    (∀ t ∈ parse_transactions lines, ∃ l ∈ lines, parseLine l = some t) ∧
    ∀ l : Str, parseLine l = none ↔
      ((splitOnChar '|' l).length ≠ 8 ∨
       pyInt (removeCommas (trimChars ((splitOnChar '|' l).getD 4 []))) = none ∨
       pyFloat (removeCommas (trimChars ((splitOnChar '|' l).getD 5 []))) = none) := by
  refine ⟨List.length_filterMap_le _ _, ?_, ?_⟩
  · intro t ht
    rcases List.mem_filterMap.mp ht with ⟨l, hl, hpl⟩
    exact ⟨l, hl, hpl⟩
  · intro l
    simp only [parseLine]
    by_cases h8 : (splitOnChar '|' l).length = 8
    · rw [if_pos h8]
      cases hq : pyInt (removeCommas (trimChars ((splitOnChar '|' l).getD 4 []))) with
      | none => simp [h8]
      | some q =>
        cases hp : pyFloat (removeCommas (trimChars ((splitOnChar '|' l).getD 5 []))) with
        | none => simp [h8]
        | some p => simp [h8]
    · rw [if_neg h8]
      simp [h8]

theorem filterMap_serialize_id (L : List Transaction)
    (hL : ∀ t ∈ L, parseLine (serializeTransaction t) = some t) :
    L.filterMap (fun t => parseLine (serializeTransaction t)) = L := by
  induction L with
  | nil => rfl
  | cons a L ih =>
    rw [List.filterMap_cons, hL a (List.mem_cons_self a L),
        ih (fun t ht => hL t (List.mem_cons_of_mem a ht))]

/-- C8 (amended): re-serializing the parsed records and parsing again yields the
same records, provided every parsed record's ProductName is free of leading and
trailing whitespace after comma removal (comma removal can expose whitespace
that the second parse's `strip()` removes, see `claim_C8_counterexample`). -/
theorem claim_C8_parse_idempotent (lines : List Str)
    (hpn : ∀ t ∈ parse_transactions lines, trimChars t.ProductName = t.ProductName) :
    parse_transactions ((parse_transactions lines).map serializeTransaction) =
      parse_transactions lines := by
  show ((parse_transactions lines).map serializeTransaction).filterMap parseLine =
    parse_transactions lines
  rw [List.filterMap_map]
  apply filterMap_serialize_id
  intro t ht
  rcases List.mem_filterMap.mp ht with ⟨l, _, hpl⟩
  exact parseLine_serialize hpl (hpn t ht)

/-- C8 counterexample: the single well-formed line `cLine` has ProductName field
`"A ,"`; the first parse strips then removes the comma, keeping a trailing
space, but re-parsing the serialized record strips that space, so the records
differ. -/
theorem claim_C8_counterexample :
    (∀ l ∈ [cLine], (parseLine l).isSome = true) ∧
    parse_transactions ((parse_transactions [cLine]).map serializeTransaction) ≠
      parse_transactions [cLine] := by
  refine ⟨by decide, by decide⟩

theorem claim_C8_witness :
    (∀ t ∈ parse_transactions [wLine], trimChars t.ProductName = t.ProductName) ∧
    parse_transactions ((parse_transactions [wLine]).map serializeTransaction) =
      parse_transactions [wLine] :=
  ⟨by decide, claim_C8_parse_idempotent [wLine] (by decide)⟩
